import Mathlib

set_option autoImplicit false

/-!
Verification of src/pyaff4/rdfvalue.py (Python 2).

The module's URN class delegates to the Python 2.7 standard library
(urlparse, posixpath, urllib); those library functions decide the claims, so
they are embedded here faithfully from CPython 2.7 alongside the repository's
own code.  Python byte strings are modelled as `List Char` (every relevant
input is ASCII, one `Char` per byte); Python exceptions are modelled as
`Option`/absence.
-/

namespace Pyaff4

/-- Conversion from a Lean string literal to the Python-string model. -/
def pystr (s : String) : List Char := s.data

/-- Model of Python `str.lower` on one ASCII character. -/
def pyLower (c : Char) : Char :=
  if 'A' ≤ c ∧ c ≤ 'Z' then Char.ofNat (c.toNat + 32) else c

/-- Test for a decimal digit, Python `c in '0123456789'`. -/
def isDigitChar (c : Char) : Bool := decide ('0' ≤ c ∧ c ≤ '9')

/-! ## Model of Python 2.7 posixpath (imported by rdfvalue.py) -/

/-- Model of Python `path.split('/')` as used by posixpath.normpath:
`''.split('/') == ['']`, `'a/'.split('/') == ['a','']`, etc. -/
def splitSl : List Char → List (List Char)
  | [] => [[]]
  | c :: t =>
    match splitSl t with
    | [] => []
    | s :: ss => if c = '/' then [] :: s :: ss else (c :: s) :: ss

/-- Model of Python `'/'.join(comps)`. -/
def joinSl : List (List Char) → List Char
  | [] => []
  | [s] => s
  | s :: ss => s ++ '/' :: joinSl ss

/-- The path component `'..'`. -/
def dd : List Char := ['.', '.']

/-- Model of the comps loop of Python 2.7 posixpath.normpath: `ab` is the
truthiness of `initial_slashes`, `acc` is `new_comps`.  A component is skipped
when it is `''` or `'.'`; `'..'` pops the accumulator except at the root or
after a retained `'..'`; everything else is appended. -/
def normSegs (ab : Bool) : List (List Char) → List (List Char) → List (List Char)
  | acc, [] => acc
  | acc, c :: rest =>
    if c = [] ∨ c = ['.'] then normSegs ab acc rest
    else if c ≠ dd ∨ (ab = false ∧ acc = []) ∨ (acc ≠ [] ∧ acc.getLast? = some dd) then
      normSegs ab (acc ++ [c]) rest
    else normSegs ab acc.dropLast rest

/-- Model of the `initial_slashes` computation of posixpath.normpath: 1 for a
leading slash, 2 for exactly-two leading slashes (POSIX), else 0. -/
def initSlashes (p : List Char) : Nat :=
  if p.take 1 = ['/'] then
    if p.take 2 = ['/', '/'] ∧ ¬ p.take 3 = ['/', '/', '/'] then 2 else 1
  else 0

/-- The last element of a list of segments extended by a suffix; a fresh
segment when there is none. -/
def extendLast (suf : List Char) : List (List Char) → List (List Char)
  | [] => [suf]
  | [s] => [s ++ suf]
  | s :: ss => s :: extendLast suf ss

/-- Model of Python 2.7 posixpath.normpath. -/
def normpath (p : List Char) : List Char :=
  if p = [] then ['.']
  else
    let sl := initSlashes p
    let segs := normSegs (decide (1 ≤ sl)) [] (splitSl p)
    let r := List.replicate sl '/' ++ joinSl segs
    if r = [] then ['.'] else r

/-- Path normalization as URN.Parse performs it (rdfvalue.py lines 144-146):
posixpath.normpath, with a `'.'` result replaced by the empty string. -/
def pnorm (p : List Char) : List Char :=
  if normpath p = ['.'] then [] else normpath p

/-- Model of Python 2.7 posixpath.join restricted to two arguments, the only
use in rdfvalue.py. -/
def posixJoin (a b : List Char) : List Char :=
  if b.take 1 = ['/'] then b
  else if a = [] ∨ a.getLast? = some '/' then a ++ b
  else a ++ '/' :: b

/-! ## Model of Python 2 urllib.quote (imported by rdfvalue.py) -/

/-- Characters Python 2 urllib never quotes (urllib.always_safe). -/
def isAlwaysSafe (c : Char) : Bool :=
  decide (('A' ≤ c ∧ c ≤ 'Z') ∨ ('a' ≤ c ∧ c ≤ 'z') ∨ ('0' ≤ c ∧ c ≤ '9') ∨
    c = '_' ∨ c = '.' ∨ c = '-')

/-- Uppercase hexadecimal digit for a value below 16. -/
def hexDigU (n : Nat) : Char :=
  if n < 10 then Char.ofNat ('0'.toNat + n) else Char.ofNat ('A'.toNat + (n - 10))

/-- Model of Python 2 urllib.quote on one byte, with quote's default
`safe='/'`: characters in always_safe plus `'/'` pass through, every other
byte becomes `%XX` with uppercase hex digits. -/
def quoteChar (c : Char) : List Char :=
  if isAlwaysSafe c ∨ c = '/' then [c]
  else ['%', hexDigU (c.toNat / 16 % 16), hexDigU (c.toNat % 16)]

/-- Model of Python 2 `urllib.quote(s)` (default safe characters). -/
def pyQuote (s : List Char) : List Char := List.flatten (s.map quoteChar)

/-! ## Model of Python 2.7 urlparse (imported by rdfvalue.py) -/

/-- Result record of urlparse.urlsplit. -/
structure SplitResult where
  scheme : List Char
  netloc : List Char
  path : List Char
  query : List Char
  fragment : List Char
deriving DecidableEq, Repr

/-- Characters allowed in a URL scheme (urlparse.scheme_chars). -/
def isSchemeChar (c : Char) : Bool :=
  decide (('a' ≤ c ∧ c ≤ 'z') ∨ ('A' ≤ c ∧ c ≤ 'Z') ∨ ('0' ≤ c ∧ c ≤ '9') ∨
    c = '+' ∨ c = '-' ∨ c = '.')

/-- The scheme-splitting step of Python 2.7 urlparse.urlsplit: a scheme is
recognised only when a colon occurs at a positive position and its text is
made of scheme characters, and (except for the literal prefix `http`, the
fast path) only when the text after the colon is empty or contains a
non-digit — otherwise the candidate is taken for a host:port prefix and the
whole input is left as the path-bearing remainder. -/
def splitScheme (url : List Char) : List Char × List Char :=
  let pre := url.takeWhile (fun c => c != ':')
  if pre.length < url.length ∧ pre ≠ [] then
    let rest := url.drop (pre.length + 1)
    if pre = pystr "http" then (pre, rest)
    else if pre.all isSchemeChar then
      if rest = [] ∨ rest.all isDigitChar = false then (pre.map pyLower, rest)
      else ([], url)
    else ([], url)
  else ([], url)

/-- The netloc-splitting step of urlsplit (_splitnetloc from position 2),
applied when the remainder starts with two slashes: the authority runs to the
first of `/`, `?`, `#`. -/
def splitNetloc (r : List Char) : List Char × List Char :=
  if r.take 2 = ['/', '/'] then
    ((r.drop 2).takeWhile (fun c => !(c == '/' || c == '?' || c == '#')),
     (r.drop 2).dropWhile (fun c => !(c == '/' || c == '?' || c == '#')))
  else ([], r)

/-- The fragment-splitting step of urlsplit: everything after the first `#`. -/
def splitFragment (r : List Char) : List Char × List Char :=
  if '#' ∈ r then
    (r.takeWhile (fun c => c != '#'), (r.dropWhile (fun c => c != '#')).drop 1)
  else (r, [])

/-- The query-splitting step of urlsplit: everything after the first `?`. -/
def splitQuery (r : List Char) : List Char × List Char :=
  if '?' ∈ r then
    (r.takeWhile (fun c => c != '?'), (r.dropWhile (fun c => c != '?')).drop 1)
  else (r, [])

/-- Model of Python 2.7 urlparse.urlsplit with `allow_fragments=True`,
composed from its steps in source order (scheme, then netloc when the
remainder starts with `//`, then fragment, then query).  The parse cache is
irrelevant to the result, and the ValueError raised for unbalanced IPv6
brackets in the netloc is omitted (it affects only inputs whose authority has
a `[` without `]` or vice versa). -/
def pysplit (url : List Char) : SplitResult :=
  let su := splitScheme url
  let nr := splitNetloc su.2
  let uf := splitFragment nr.2
  let pq := splitQuery uf.1
  ⟨su.1, nr.1, pq.1, pq.2, uf.2⟩

/-- Suffix of l after its last slash, `l[l.rfind('/')+1:]`; l itself when it
has no slash. -/
def afterLastSlash (l : List Char) : List Char :=
  (l.reverse.takeWhile (fun c => c != '/')).reverse

/-- Model of Python 2.7 urlparse._splitparams.  Its caller guarantees
`';' ∈ url`; under that guarantee the first semicolon in the last
slash-separated segment (or in the whole string when it has no slash) splits
off the params, and when that segment has no semicolon nothing is split. -/
def splitparams (url : List Char) : List Char × List Char :=
  if '/' ∈ url then
    let b := afterLastSlash url
    if ';' ∈ b then
      (url.take (url.length - b.length) ++ b.takeWhile (fun c => c != ';'),
       (b.dropWhile (fun c => c != ';')).drop 1)
    else (url, [])
  else
    (url.takeWhile (fun c => c != ';'), (url.dropWhile (fun c => c != ';')).drop 1)

/-- Python 2.7 urlparse.uses_params. -/
def usesParams : List (List Char) :=
  [pystr "ftp", pystr "hdl", pystr "prospero", pystr "http", pystr "imap",
   pystr "https", pystr "shttp", pystr "rtsp", pystr "rtspu", pystr "sip",
   pystr "sips", pystr "mms", pystr "", pystr "sftp", pystr "tel"]

/-- Result record of urlparse.urlparse (components._replace is record update). -/
structure ParseResult where
  scheme : List Char
  netloc : List Char
  path : List Char
  params : List Char
  query : List Char
  fragment : List Char
deriving DecidableEq, Repr

/-- Model of Python 2.7 urlparse.urlparse: urlsplit, then params are split
from the path only for schemes in uses_params. -/
def pyparse (v : List Char) : ParseResult :=
  let s := pysplit v
  if s.scheme ∈ usesParams ∧ ';' ∈ s.path then
    let pp := splitparams s.path
    ⟨s.scheme, s.netloc, pp.1, pp.2, s.query, s.fragment⟩
  else
    ⟨s.scheme, s.netloc, s.path, [], s.query, s.fragment⟩

/-- Model of Python 2.7 urlparse.urlunsplit. -/
def urlunsplit (scheme netloc url query fragment : List Char) : List Char :=
  let u1 := if netloc ≠ [] ∨ (url ≠ [] ∧ url.take 2 = ['/', '/']) then
    '/' :: '/' :: (netloc ++ url) else url
  let u2 := if scheme ≠ [] then scheme ++ ':' :: u1 else u1
  let u3 := if query ≠ [] then u2 ++ '?' :: query else u2
  if fragment ≠ [] then u3 ++ '#' :: fragment else u3

/-- Model of Python 2.7 urlparse.urlunparse. -/
def urlunparse (c : ParseResult) : List Char :=
  let u := if c.params ≠ [] then c.path ++ ';' :: c.params else c.path
  urlunsplit c.scheme c.netloc u c.query c.fragment

/-! ## Embedding of src/pyaff4/rdfvalue.py -/

/-- State of class URN: the string stored by URN.Set (self.value). -/
structure URN where
  value : List Char
deriving DecidableEq, Repr

/-- URN.Set for a plain-string initializer (rdfvalue.py lines 136-140):
stores str(data); URN(s) constructs via Set. -/
def URN.Set (data : List Char) : URN := ⟨data⟩

/-- URN.Parse (rdfvalue.py lines 142-152): urlparse the stored value,
normalize the path with posixpath.normpath and collapse a `'.'` result to the
empty string, and default an absent scheme to `"file"`. -/
def URN.Parse (u : URN) : ParseResult :=
  let components := pyparse u.value
  let components := { components with path := pnorm components.path }
  if components.scheme = [] then { components with scheme := pystr "file" }
  else components

/-- URN.SerializeToString (rdfvalue.py lines 129-131). -/
def URN.SerializeToString (u : URN) : List Char := urlunparse u.Parse

/-- URN.Scheme (rdfvalue.py lines 154-156). -/
def URN.Scheme (u : URN) : List Char := u.Parse.scheme

/-- URN.ToFilename (rdfvalue.py lines 121-124): the parsed path when the
scheme is "file"; Python falls off the method (returns None) otherwise,
modelled as Option. -/
def URN.ToFilename (u : URN) : Option (List Char) :=
  if u.Parse.scheme = pystr "file" then some u.Parse.path else none

/-- URN.Append (rdfvalue.py lines 158-168): quote the component when asked,
posix-join it to the parsed path, normalize, and build a new URN from the
unparsed components. -/
def URN.Append (u : URN) (component : List Char) (quote : Bool) : URN :=
  let components := u.Parse
  let comp := if quote then pyQuote component else component
  let newPath := normpath (posixJoin components.path comp)
  URN.Set (urlunparse { components with path := newPath })

/-- Method-level embedding of URN.Append for the frame property: a Python
call `self.Append(...)` yields (state of self after the call, returned URN).
The body only reads self (self.Parse()) and never assigns self.value, so its
translation returns self unchanged as the post-state. -/
def URN.AppendM (self : URN) (component : List Char) (quote : Bool) : URN × URN :=
  let components := self.Parse
  let comp := if quote then pyQuote component else component
  let newPath := normpath (posixJoin components.path comp)
  (self, URN.Set (urlunparse { components with path := newPath }))

/-- URN.RelativePath (rdfvalue.py lines 170-174): Python returns the suffix
of str(urn) past this URN's serialized string when the former starts with the
latter, and falls off the method (None) otherwise. -/
def URN.RelativePath (u other : URN) : Option (List Char) :=
  let v := u.SerializeToString
  let ov := other.SerializeToString
  if v.isPrefixOf ov then some (ov.drop v.length) else none

/-- RDFValue equality (rdfvalue.py lines 49-50) as inherited by URN:
str(self) == str(other), where str is SerializeToString (lines 46-47). -/
def URN.eq (u other : URN) : Bool :=
  u.SerializeToString == other.SerializeToString

/-- Test for a Python whitespace character (as stripped by int()). -/
def isPySpace (c : Char) : Bool :=
  c == ' ' || c == '\t' || c == '\n' || c == '\r' || c == '\x0b' || c == '\x0c'

/-- Whitespace stripped from both ends, Python str.strip(). -/
def pyStrip (s : List Char) : List Char :=
  ((s.dropWhile isPySpace).reverse.dropWhile isPySpace).reverse

/-- Value of a list of decimal digits. -/
def digitsVal (ds : List Char) : Nat :=
  ds.foldl (fun a c => 10 * a + (c.toNat - '0'.toNat)) 0

/-- Model of Python int(string): optional surrounding whitespace, an optional
sign, then at least one decimal digit; any other shape raises ValueError,
modelled as none. -/
def pyInt (s : List Char) : Option Int :=
  let t := pyStrip s
  let sd : Bool × List Char :=
    if t.take 1 = ['-'] then (true, t.drop 1)
    else if t.take 1 = ['+'] then (false, t.drop 1)
    else (false, t)
  if sd.2 ≠ [] ∧ sd.2.all isDigitChar then
    some (if sd.1 then -(digitsVal sd.2 : Int) else (digitsVal sd.2 : Int))
  else none

/-- Python str() of an int. -/
def intStr (n : Int) : List Char :=
  if n < 0 then '-' :: Nat.toDigits 10 n.natAbs else Nat.toDigits 10 n.toNat

/-- URN.UnSerializeFromString (rdfvalue.py lines 133-134): the body is
self.Set(int(string)); int() of a non-numeric string raises ValueError
(none), and on success Set stores str() of the integer. -/
def URN.UnSerializeFromString (s : List Char) : Option URN :=
  (pyInt s).map (fun n => URN.Set (intStr n))

/-- Test for a hexadecimal digit as accepted by binascii. -/
def isHexDigitChar (c : Char) : Bool :=
  decide (('0' ≤ c ∧ c ≤ '9') ∨ ('a' ≤ c ∧ c ≤ 'f') ∨ ('A' ≤ c ∧ c ≤ 'F'))

/-- Numeric value of a hexadecimal digit. -/
def hexVal (c : Char) : Nat :=
  if '0' ≤ c ∧ c ≤ '9' then c.toNat - '0'.toNat
  else if 'a' ≤ c ∧ c ≤ 'f' then c.toNat - 'a'.toNat + 10
  else c.toNat - 'A'.toNat + 10

/-- Model of Python 2 str.decode("hex") (binascii.a2b_hex): fails with
TypeError (none) on an odd-length input or any non-hex character; otherwise
produces the byte sequence. -/
def hexDecode : List Char → Option (List Nat)
  | [] => some []
  | [_] => none
  | a :: b :: t =>
    if isHexDigitChar a ∧ isHexDigitChar b then
      (hexDecode t).map (fun r => (16 * hexVal a + hexVal b) :: r)
    else none

/-- State of class RDFBytes: the byte string stored by RDFBytes.Set. -/
structure RDFBytes where
  value : List Nat
deriving DecidableEq, Repr

/-- RDFBytes.UnSerializeFromString (rdfvalue.py lines 63-64):
self.Set(string.decode("hex")); the hex codec's failure is modelled as none. -/
def RDFBytes.UnSerializeFromString (s : List Char) : Option RDFBytes :=
  (hexDecode s).map RDFBytes.mk

/-- A well-formed normalized path segment: nonempty, not the dot segment, and
free of slashes. -/
def GoodSeg (s : List Char) : Prop := s ≠ [] ∧ s ≠ ['.'] ∧ '/' ∉ s

/-- Shape of the segment stack normSegs produces: a possibly-empty run of
dot-dot segments (none when the path is absolute) followed by ordinary
segments. -/
def GoodStack (ab : Bool) (L : List (List Char)) : Prop :=
  ∃ k M, L = List.replicate k dd ++ M ∧ (∀ s ∈ M, GoodSeg s ∧ s ≠ dd) ∧
    (ab = true → k = 0)

/-- Invariants every URN.Parse result satisfies; they make re-parsing of the
serialized form stable. -/
def ParseInv (c : ParseResult) : Prop :=
  ('#' ∉ c.path ∧ '?' ∉ c.path) ∧
  (∀ ch ∈ c.netloc, ch ≠ '/' ∧ ch ≠ '?' ∧ ch ≠ '#') ∧
  '#' ∉ c.query ∧
  ('/' ∉ c.params ∧ '#' ∉ c.params ∧ '?' ∉ c.params) ∧
  pnorm c.path = c.path ∧
  (c.params ≠ [] → pnorm (c.path ++ ';' :: c.params) = c.path ++ ';' :: c.params) ∧
  (c.netloc ≠ [] → (c.path = [] ∧ c.params = []) ∨ c.path.take 1 = ['/'])

/-! ## General list helpers -/

theorem mem_dropWhile_of_mem {a : Char} {l : List Char} {p : Char → Bool}
    (h : a ∈ l) (hp : p a = false) : a ∈ l.dropWhile p := by
  induction l with
  | nil => cases h
  | cons x t ih =>
    rcases List.mem_cons.mp h with rfl | hmem
    · rw [List.dropWhile_cons, hp]
      exact List.mem_cons_self _ _
    · rw [List.dropWhile_cons]
      by_cases hx : p x
      · simpa [hx] using ih hmem
      · simp only [hx]
        exact List.mem_cons_of_mem _ hmem

theorem mem_takeWhile_pred {a : Char} {l : List Char} {p : Char → Bool}
    (h : a ∈ l.takeWhile p) : p a = true := by
  induction l with
  | nil => cases h
  | cons x t ih =>
    rw [List.takeWhile_cons] at h
    by_cases hx : p x
    · rw [if_pos hx] at h
      rcases List.mem_cons.mp h with rfl | hmem
      · exact hx
      · exact ih hmem
    · rw [if_neg hx] at h
      cases h

theorem takeWhile_append_notin {A B : List Char} {d : Char} (hA : d ∉ A) :
    (A ++ d :: B).takeWhile (fun c => c != d) = A ∧
    ((A ++ d :: B).dropWhile (fun c => c != d)).drop 1 = B := by
  induction A with
  | nil => simp
  | cons x t ih =>
    have hx : x ≠ d := fun hxd => hA (hxd ▸ List.mem_cons_self _ _)
    have ht : d ∉ t := fun hmem => hA (List.mem_cons_of_mem _ hmem)
    obtain ⟨ih1, ih2⟩ := ih ht
    constructor
    · simpa [List.takeWhile_cons, hx] using ih1
    · simpa [List.dropWhile_cons, hx] using ih2

theorem takeWhile_all_notin {A : List Char} {d : Char} (hA : d ∉ A) :
    A.takeWhile (fun c => c != d) = A := by
  apply List.takeWhile_eq_self_iff.mpr
  intro c hc
  simp only [bne_iff_ne, ne_eq]
  intro hcd
  exact hA (hcd ▸ hc)

/-! ## Lemmas on splitSl and joinSl -/

theorem splitSl_cons (c : Char) (t : List Char) :
    splitSl (c :: t) = match splitSl t with
      | [] => []
      | s :: ss => if c = '/' then [] :: s :: ss else (c :: s) :: ss := rfl

theorem splitSl_ne_nil : ∀ t : List Char, splitSl t ≠ []
  | [] => by simp [splitSl]
  | c :: t => by
    rw [splitSl_cons]
    cases h : splitSl t with
    | nil => exact absurd h (splitSl_ne_nil t)
    | cons s ss =>
      show (if c = '/' then [] :: s :: ss else (c :: s) :: ss) ≠ []
      split <;> simp

theorem splitSl_exists (t : List Char) : ∃ s ss, splitSl t = s :: ss := by
  cases h : splitSl t with
  | nil => exact absurd h (splitSl_ne_nil t)
  | cons s ss => exact ⟨s, ss, rfl⟩

theorem splitSl_slash (t : List Char) : splitSl ('/' :: t) = [] :: splitSl t := by
  obtain ⟨s, ss, h⟩ := splitSl_exists t
  rw [splitSl_cons, h]
  simp

theorem splitSl_nonslash {c : Char} (hc : c ≠ '/') {t s : List Char}
    {ss : List (List Char)} (h : splitSl t = s :: ss) :
    splitSl (c :: t) = (c :: s) :: ss := by
  rw [splitSl_cons, h]
  simp [hc]

theorem splitSl_no_slash : ∀ (t : List Char), ∀ s ∈ splitSl t, '/' ∉ s
  | [], s, hs => by
    simp [splitSl] at hs
    subst hs
    simp
  | c :: t, s, hs => by
    obtain ⟨s1, ss, h⟩ := splitSl_exists t
    by_cases hc : c = '/'
    · subst hc
      rw [splitSl_slash] at hs
      rcases List.mem_cons.mp hs with rfl | hs
      · simp
      · exact splitSl_no_slash t s hs
    · rw [splitSl_nonslash hc h] at hs
      rcases List.mem_cons.mp hs with rfl | hs
      · intro hm
        rcases List.mem_cons.mp hm with h1 | h1
        · exact hc h1.symm
        · exact splitSl_no_slash t s1 (by rw [h]; exact List.mem_cons_self s1 ss) h1
      · exact splitSl_no_slash t s (by rw [h]; exact List.mem_cons_of_mem s1 hs)

theorem joinSl_cons (s : List Char) {ss : List (List Char)} (h : ss ≠ []) :
    joinSl (s :: ss) = s ++ '/' :: joinSl ss := by
  cases ss with
  | nil => exact absurd rfl h
  | cons a t => rfl

theorem extendLast_ne_nil (suf : List Char) : ∀ L : List (List Char),
    extendLast suf L ≠ []
  | [] => by simp [extendLast]
  | [s] => by simp [extendLast]
  | s :: a :: t => by simp [extendLast]

theorem joinSl_extendLast (suf : List Char) : ∀ (L : List (List Char)), L ≠ [] →
    joinSl (extendLast suf L) = joinSl L ++ suf
  | [], h => absurd rfl h
  | [s], _ => by simp [extendLast, joinSl]
  | s :: a :: t, _ => by
    rw [show extendLast suf (s :: a :: t) = s :: extendLast suf (a :: t) from rfl]
    rw [joinSl_cons s (extendLast_ne_nil suf (a :: t)), joinSl_cons s (by simp)]
    rw [joinSl_extendLast suf (a :: t) (by simp)]
    simp

theorem extendLast_cons (suf a : List Char) {L : List (List Char)} (h : L ≠ []) :
    extendLast suf (a :: L) = a :: extendLast suf L := by
  cases L with
  | nil => exact absurd rfl h
  | cons x xs => rfl

theorem extendLast_append (suf : List Char) :
    ∀ (A M : List (List Char)), M ≠ [] →
      extendLast suf (A ++ M) = A ++ extendLast suf M
  | [], M, _ => by simp
  | a :: A, M, h => by
    rw [List.cons_append, extendLast_cons suf a (by simp [h]),
      extendLast_append suf A M h]
    simp

theorem extendLast_replicate (suf : List Char) (x : List Char) :
    ∀ k : Nat, extendLast suf (List.replicate (k + 1) x) =
      List.replicate k x ++ [x ++ suf]
  | 0 => by simp [extendLast]
  | k + 1 => by
    rw [show List.replicate (k + 1 + 1) x = x :: List.replicate (k + 1) x from
      List.replicate_succ x (k + 1)]
    rw [extendLast_cons suf x (by simp), extendLast_replicate suf x k,
      List.replicate_succ]
    simp

theorem splitSl_noslash_id {s : List Char} (h : '/' ∉ s) : splitSl s = [s] := by
  induction s with
  | nil => rfl
  | cons c t ih =>
    have hc : c ≠ '/' := fun e => h (e ▸ List.mem_cons_self c t)
    have ht : '/' ∉ t := fun m => h (List.mem_cons_of_mem c m)
    exact splitSl_nonslash hc (ih ht)

theorem splitSl_append_slash {s : List Char} (h : '/' ∉ s) (r : List Char) :
    splitSl (s ++ '/' :: r) = s :: splitSl r := by
  induction s with
  | nil => simpa using splitSl_slash r
  | cons c t ih =>
    have hc : c ≠ '/' := fun e => h (e ▸ List.mem_cons_self c t)
    have ht : '/' ∉ t := fun m => h (List.mem_cons_of_mem c m)
    exact splitSl_nonslash hc (ih ht)

theorem splitSl_joinSl : ∀ (L : List (List Char)), L ≠ [] →
    (∀ s ∈ L, '/' ∉ s) → splitSl (joinSl L) = L
  | [], h, _ => absurd rfl h
  | [s], _, hs => splitSl_noslash_id (hs s (by simp))
  | s :: a :: t, _, hs => by
    rw [joinSl_cons s (by simp), splitSl_append_slash (hs s (by simp))]
    rw [splitSl_joinSl (a :: t) (by simp)
      (fun x hx => hs x (List.mem_cons_of_mem s hx))]

theorem splitSl_replicate_append (n : Nat) (r : List Char) :
    splitSl (List.replicate n '/' ++ r) =
      List.replicate n [] ++ splitSl r := by
  induction n with
  | zero => simp
  | succ m ih => simp [List.replicate_succ, splitSl_slash, ih]

theorem mem_joinSl {c : Char} : ∀ {L : List (List Char)}, c ∈ joinSl L →
    c = '/' ∨ ∃ s ∈ L, c ∈ s
  | [], h => by cases h
  | [s], h => Or.inr ⟨s, by simp, h⟩
  | s :: a :: t, h => by
    rw [joinSl_cons s (by simp)] at h
    rcases List.mem_append.mp h with h1 | h1
    · exact Or.inr ⟨s, by simp, h1⟩
    · rcases List.mem_cons.mp h1 with rfl | h2
      · exact Or.inl rfl
      · rcases mem_joinSl h2 with h3 | ⟨x, hx, hcx⟩
        · exact Or.inl h3
        · exact Or.inr ⟨x, List.mem_cons_of_mem s hx, hcx⟩

/-! ## Lemmas on normSegs -/

theorem normSegs_cons (ab : Bool) (acc : List (List Char)) (c : List Char)
    (rest : List (List Char)) :
    normSegs ab acc (c :: rest) =
      if c = [] ∨ c = ['.'] then normSegs ab acc rest
      else if c ≠ dd ∨ (ab = false ∧ acc = []) ∨
          (acc ≠ [] ∧ acc.getLast? = some dd) then
        normSegs ab (acc ++ [c]) rest
      else normSegs ab acc.dropLast rest := rfl

theorem getLast?_replicate_succ (x : List Char) :
    ∀ i : Nat, (List.replicate (i + 1) x).getLast? = some x
  | 0 => rfl
  | i + 1 => by
    rw [List.replicate_succ, List.replicate_succ x i, List.getLast?_cons_cons,
      ← List.replicate_succ]
    exact getLast?_replicate_succ x i

theorem normSegs_skip_empties (ab : Bool) (acc : List (List Char)) (n : Nat)
    (rest : List (List Char)) :
    normSegs ab acc (List.replicate n [] ++ rest) = normSegs ab acc rest := by
  induction n with
  | zero => rfl
  | succ m ih => simp [List.replicate_succ, normSegs_cons, ih]

theorem normSegs_fixed (ab : Bool) : ∀ (M acc : List (List Char)),
    (∀ s ∈ M, s ≠ [] ∧ s ≠ ['.'] ∧ s ≠ dd) → normSegs ab acc M = acc ++ M
  | [], acc, _ => by simp [normSegs]
  | c :: rest, acc, h => by
    obtain ⟨h1, h2, h3⟩ := h c (List.mem_cons_self c rest)
    rw [normSegs_cons, if_neg (by simp [h1, h2]), if_pos (Or.inl h3)]
    rw [normSegs_fixed ab rest (acc ++ [c])
      (fun s hs => h s (List.mem_cons_of_mem c hs))]
    simp

theorem normSegs_dd_prefix : ∀ (j i : Nat) (M : List (List Char)),
    (∀ s ∈ M, s ≠ [] ∧ s ≠ ['.'] ∧ s ≠ dd) →
    normSegs false (List.replicate i dd) (List.replicate j dd ++ M) =
      List.replicate (i + j) dd ++ M
  | 0, i, M, h => by simpa using normSegs_fixed false M (List.replicate i dd) h
  | j + 1, i, M, h => by
    rw [List.replicate_succ, List.cons_append, normSegs_cons,
      if_neg (by decide)]
    have hstep : normSegs false (List.replicate i dd ++ [dd])
        (List.replicate j dd ++ M) = List.replicate (i + (j + 1)) dd ++ M := by
      rw [← List.replicate_succ' i dd, normSegs_dd_prefix j (i + 1) M h]
      congr 1
      congr 1
      omega
    cases i with
    | zero => rw [if_pos (Or.inr (Or.inl ⟨rfl, rfl⟩))]; simpa using hstep
    | succ k =>
      rw [if_pos (Or.inr (Or.inr ⟨by simp [List.replicate_succ],
        getLast?_replicate_succ dd k⟩))]
      exact hstep

theorem normSegs_id_of_good {ab : Bool} {L : List (List Char)}
    (h : GoodStack ab L) : normSegs ab [] L = L := by
  obtain ⟨k, M, rfl, hM, hk⟩ := h
  have hM' : ∀ s ∈ M, s ≠ [] ∧ s ≠ ['.'] ∧ s ≠ dd := by
    intro s hs
    obtain ⟨⟨h1, h2, _⟩, h3⟩ := hM s hs
    exact ⟨h1, h2, h3⟩
  cases ab with
  | true =>
    rw [hk rfl]
    simpa using normSegs_fixed true M [] hM'
  | false => simpa using normSegs_dd_prefix k 0 M hM'

theorem normSegs_good (ab : Bool) : ∀ (segs acc : List (List Char)),
    GoodStack ab acc → (∀ s ∈ segs, '/' ∉ s) →
    GoodStack ab (normSegs ab acc segs)
  | [], _, hg, _ => hg
  | c :: rest, acc, hg, hs => by
    have hrest : ∀ s ∈ rest, '/' ∉ s := fun s hs' =>
      hs s (List.mem_cons_of_mem c hs')
    rw [normSegs_cons]
    by_cases h1 : c = [] ∨ c = ['.']
    · rw [if_pos h1]
      exact normSegs_good ab rest acc hg hrest
    · rw [if_neg h1]
      push_neg at h1
      by_cases hcond : c ≠ dd ∨ (ab = false ∧ acc = []) ∨
          (acc ≠ [] ∧ acc.getLast? = some dd)
      · rw [if_pos hcond]
        refine normSegs_good ab rest _ ?_ hrest
        obtain ⟨k, M, rfl, hM, hk⟩ := hg
        by_cases hdd : c = dd
        · subst hdd
          rcases hcond with hne | ⟨hab, hacc⟩ | ⟨hne, hlast⟩
          · exact absurd rfl hne
          · obtain ⟨hk0, hM0⟩ := List.append_eq_nil.mp hacc
            have hknat : k = 0 := by
              by_contra hkk
              obtain ⟨k', rfl⟩ := Nat.exists_eq_succ_of_ne_zero hkk
              simp [List.replicate_succ] at hk0
            subst hknat
            subst hM0
            refine ⟨1, [], by simp, by simp, fun habs => ?_⟩
            rw [hab] at habs
            cases habs
          · have hM0 : M = [] := by
              by_contra hMne
              have hg1 : (List.replicate k dd ++ M).getLast? =
                  some (M.getLast hMne) := by
                rw [List.getLast?_append, List.getLast?_eq_getLast M hMne]
                rfl
              rw [hlast] at hg1
              have hne2 := (hM _ (List.getLast_mem hMne)).2
              exact hne2 (Option.some.inj hg1).symm
            subst hM0
            have hkpos : k ≠ 0 := by
              intro hk0
              subst hk0
              simp at hne
            refine ⟨k + 1, [], by simp [List.replicate_succ'],
              by simp, fun habs => absurd (hk habs) hkpos⟩
        · obtain ⟨hc1, hc2⟩ := h1
          refine ⟨k, M ++ [c], by simp, ?_, hk⟩
          intro s hsm
          rcases List.mem_append.mp hsm with hsm | hsm
          · exact hM s hsm
          · have hseq : s = c := by simpa using hsm
            rw [hseq]
            exact ⟨⟨hc1, hc2, hs c (List.mem_cons_self c rest)⟩, hdd⟩
      · rw [if_neg hcond]
        refine normSegs_good ab rest _ ?_ hrest
        obtain ⟨k, M, rfl, hM, hk⟩ := hg
        by_cases hMne : M = []
        · subst hMne
          cases k with
          | zero => exact ⟨0, [], by simp, by simp, fun _ => rfl⟩
          | succ k' =>
            refine ⟨k', [], ?_, by simp, fun habs => absurd (hk habs)
              (Nat.succ_ne_zero k')⟩
            rw [List.replicate_succ' k' dd]
            simp [List.dropLast_concat]
        · refine ⟨k, M.dropLast, by
            rw [List.dropLast_append_of_ne_nil _ hMne], ?_, hk⟩
          intro s hsm
          exact hM s ((List.dropLast_sublist M).subset hsm)

theorem normSegs_mem (ab : Bool) : ∀ (segs acc : List (List Char))
    (s : List Char), s ∈ normSegs ab acc segs → s ∈ acc ∨ s ∈ segs
  | [], _, s, h => Or.inl h
  | c :: rest, acc, s, h => by
    rw [normSegs_cons] at h
    by_cases h1 : c = [] ∨ c = ['.']
    · rw [if_pos h1] at h
      rcases normSegs_mem ab rest acc s h with h2 | h2
      · exact Or.inl h2
      · exact Or.inr (List.mem_cons_of_mem c h2)
    · rw [if_neg h1] at h
      by_cases hcond : c ≠ dd ∨ (ab = false ∧ acc = []) ∨
          (acc ≠ [] ∧ acc.getLast? = some dd)
      · rw [if_pos hcond] at h
        rcases normSegs_mem ab rest (acc ++ [c]) s h with h2 | h2
        · rcases List.mem_append.mp h2 with h3 | h3
          · exact Or.inl h3
          · have hseq : s = c := by simpa using h3
            rw [hseq]
            exact Or.inr (List.mem_cons_self c rest)
        · exact Or.inr (List.mem_cons_of_mem c h2)
      · rw [if_neg hcond] at h
        rcases normSegs_mem ab rest acc.dropLast s h with h2 | h2
        · exact Or.inl ((List.dropLast_sublist acc).subset h2)
        · exact Or.inr (List.mem_cons_of_mem c h2)

/-! ## Lemmas on normpath -/

theorem joinSl_singleton (s : List Char) : joinSl [s] = s := rfl

theorem splitSl_chars : ∀ (t : List Char), ∀ s ∈ splitSl t, ∀ c ∈ s, c ∈ t
  | [], s, hs, c, hc => by
    simp [splitSl] at hs
    subst hs
    cases hc
  | x :: t, s, hs, c, hc => by
    by_cases hx : x = '/'
    · subst hx
      rw [splitSl_slash] at hs
      rcases List.mem_cons.mp hs with hseq | hs
      · rw [hseq] at hc
        cases hc
      · exact List.mem_cons_of_mem _ (splitSl_chars t s hs c hc)
    · obtain ⟨s1, ss, h⟩ := splitSl_exists t
      rw [splitSl_nonslash hx h] at hs
      rcases List.mem_cons.mp hs with hseq | hs
      · rw [hseq] at hc
        rcases List.mem_cons.mp hc with rfl | hc
        · exact List.mem_cons_self _ _
        · exact List.mem_cons_of_mem _ (splitSl_chars t s1
            (by rw [h]; exact List.mem_cons_self s1 ss) c hc)
      · exact List.mem_cons_of_mem _ (splitSl_chars t s
          (by rw [h]; exact List.mem_cons_of_mem s1 hs) c hc)

theorem initSlashes_le_two (p : List Char) : initSlashes p ≤ 2 := by
  unfold initSlashes
  split
  · split <;> omega
  · omega

theorem initSlashes_nonslash {c : Char} (hc : c ≠ '/') (t : List Char) :
    initSlashes (c :: t) = 0 := by
  unfold initSlashes
  rw [if_neg]
  intro he
  simp at he
  exact hc he

theorem initSlashes_one {c : Char} (hc : c ≠ '/') (t : List Char) :
    initSlashes ('/' :: c :: t) = 1 := by
  unfold initSlashes
  rw [if_pos (by simp), if_neg]
  rintro ⟨h2, -⟩
  simp at h2
  exact hc h2

theorem initSlashes_two {c : Char} (hc : c ≠ '/') (t : List Char) :
    initSlashes ('/' :: '/' :: c :: t) = 2 := by
  unfold initSlashes
  rw [if_pos (by simp), if_pos]
  refine ⟨by simp, ?_⟩
  intro h3
  simp at h3
  exact hc h3

theorem initSlashes_pos (t : List Char) : 1 ≤ initSlashes ('/' :: t) := by
  unfold initSlashes
  rw [if_pos (by simp)]
  split <;> omega

theorem seg_with_mem_ne {s suf : List Char} {ch : Char} (hch : ch ∈ suf)
    (hchd : ch ≠ '.') :
    s ++ suf ≠ [] ∧ s ++ suf ≠ ['.'] ∧ s ++ suf ≠ dd := by
  have hmem : ch ∈ s ++ suf := List.mem_append_right s hch
  refine ⟨?_, ?_, ?_⟩ <;> intro he <;> rw [he] at hmem
  · cases hmem
  · exact hchd (by simpa using hmem)
  · refine hchd ?_
    rcases List.mem_cons.mp hmem with h1 | h1
    · exact h1
    · simpa using h1

theorem extendLast_good {suf : List Char} {ch : Char} (hch : ch ∈ suf)
    (hchd : ch ≠ '.') (hsl : '/' ∉ suf) :
    ∀ M : List (List Char), (∀ s ∈ M, GoodSeg s ∧ s ≠ dd) →
      ∀ s ∈ extendLast suf M, GoodSeg s ∧ s ≠ dd
  | [], _, s, hs => by
    have hseq : s = suf := by simpa [extendLast] using hs
    rw [hseq]
    obtain ⟨h1, h2, h3⟩ := seg_with_mem_ne (s := []) hch hchd
    rw [List.nil_append] at h1 h2 h3
    exact ⟨⟨h1, h2, hsl⟩, h3⟩
  | [m], hM, s, hs => by
    have hseq : s = m ++ suf := by simpa [extendLast] using hs
    rw [hseq]
    obtain ⟨h1, h2, h3⟩ := seg_with_mem_ne (s := m) hch hchd
    refine ⟨⟨h1, h2, ?_⟩, h3⟩
    intro hm
    rcases List.mem_append.mp hm with hm | hm
    · exact (hM m (by simp)).1.2.2 hm
    · exact hsl hm
  | m :: a :: t, hM, s, hs => by
    rw [extendLast_cons suf m (by simp)] at hs
    rcases List.mem_cons.mp hs with hseq | hs
    · rw [hseq]
      exact hM m (by simp)
    · exact extendLast_good hch hchd hsl (a :: t)
        (fun x hx => hM x (List.mem_cons_of_mem m hx)) s hs

theorem normpath_fix (sl : Nat) (L : List (List Char)) (hsl : sl ≤ 2)
    (hg : GoodStack (decide (1 ≤ sl)) L) (hnz : L = [] → 1 ≤ sl) :
    normpath (List.replicate sl '/' ++ joinSl L) =
      List.replicate sl '/' ++ joinSl L ∧
    List.replicate sl '/' ++ joinSl L ≠ ['.'] := by
  have hseg : ∀ s ∈ L, s ≠ [] ∧ s ≠ ['.'] ∧ '/' ∉ s := by
    obtain ⟨k, M, hLk, hM, hk⟩ := hg
    rw [hLk]
    intro s hs
    rcases List.mem_append.mp hs with hs | hs
    · rw [List.eq_of_mem_replicate hs]
      exact ⟨by decide, by decide, by decide⟩
    · obtain ⟨⟨a1, a2, a3⟩, _⟩ := hM s hs
      exact ⟨a1, a2, a3⟩
  cases L with
  | nil =>
    have h1 : 1 ≤ sl := hnz rfl
    have h2 : sl = 1 ∨ sl = 2 := by omega
    rcases h2 with rfl | rfl
    · exact ⟨by decide, by decide⟩
    · exact ⟨by decide, by decide⟩
  | cons s0 ss =>
    obtain ⟨hs0ne, hs0dot, hs0sl⟩ := hseg s0 (List.mem_cons_self s0 ss)
    cases s0 with
    | nil => exact absurd rfl hs0ne
    | cons c s0' =>
      have hc : c ≠ '/' := fun he => hs0sl (by
        rw [← he]
        exact List.mem_cons_self c s0')
      obtain ⟨r, hr⟩ : ∃ r, joinSl ((c :: s0') :: ss) = (c :: s0') ++ r := by
        cases ss with
        | nil => exact ⟨[], by simp [joinSl_singleton]⟩
        | cons a t => exact ⟨'/' :: joinSl (a :: t), joinSl_cons _ (by simp)⟩
      have hseg' : ∀ s ∈ (c :: s0') :: ss, '/' ∉ s := fun s hs => (hseg s hs).2.2
      have hx_ne : List.replicate sl '/' ++ joinSl ((c :: s0') :: ss) ≠ [] := by
        rw [hr]
        simp
      have hinit : initSlashes (List.replicate sl '/' ++
          joinSl ((c :: s0') :: ss)) = sl := by
        rw [hr]
        have h2 : sl = 0 ∨ sl = 1 ∨ sl = 2 := by omega
        rcases h2 with rfl | rfl | rfl
        · simp only [show List.replicate 0 '/' = ([] : List Char) from rfl,
            List.nil_append, List.cons_append]
          exact initSlashes_nonslash hc _
        · simp only [show List.replicate 1 '/' = ['/'] from by decide,
            List.cons_append, List.nil_append]
          exact initSlashes_one hc _
        · simp only [show List.replicate 2 '/' = ['/', '/'] from by decide,
            List.cons_append, List.nil_append]
          exact initSlashes_two hc _
      have hsplit : splitSl (List.replicate sl '/' ++
          joinSl ((c :: s0') :: ss)) =
          List.replicate sl [] ++ ((c :: s0') :: ss) := by
        rw [splitSl_replicate_append, splitSl_joinSl _ (by simp) hseg']
      have hns : normSegs (decide (1 ≤ sl)) [] ((c :: s0') :: ss) =
          (c :: s0') :: ss := normSegs_id_of_good hg
      have hdot : List.replicate sl '/' ++ joinSl ((c :: s0') :: ss) ≠ ['.'] := by
        rw [hr]
        cases sl with
        | zero =>
          simp only [show List.replicate 0 '/' = ([] : List Char) from rfl,
            List.nil_append, List.cons_append]
          intro he
          injection he with he1 he2
          obtain ⟨hs0'nil, hrnil⟩ := List.append_eq_nil.mp he2
          apply hs0dot
          rw [he1, hs0'nil]
        | succ n =>
          rw [List.replicate_succ, List.cons_append]
          intro he
          injection he with he1 he2
          exact absurd he1 (by decide)
      refine ⟨?_, hdot⟩
      simp only [normpath]
      rw [if_neg hx_ne, hinit, hsplit, normSegs_skip_empties, hns, if_neg hx_ne]

theorem pnorm_nil : pnorm [] = [] := by decide

theorem pnorm_ne_dot (p : List Char) : pnorm p ≠ ['.'] := by
  unfold pnorm
  split
  · simp
  · next h => exact h

theorem pnorm_struct (p : List Char) (h : pnorm p ≠ []) :
    ∃ sl L, sl ≤ 2 ∧ GoodStack (decide (1 ≤ sl)) L ∧ (L = [] → 1 ≤ sl) ∧
      pnorm p = List.replicate sl '/' ++ joinSl L ∧
      (∀ s ∈ L, ∀ ch ∈ s, ch ∈ p) := by
  have hp : p ≠ [] := by
    intro hp0
    rw [hp0] at h
    exact h pnorm_nil
  have hnd : normpath p ≠ ['.'] := by
    intro hd
    apply h
    unfold pnorm
    rw [if_pos hd]
  refine ⟨initSlashes p, normSegs (decide (1 ≤ initSlashes p)) [] (splitSl p),
    initSlashes_le_two p,
    normSegs_good _ (splitSl p) [] ⟨0, [], rfl, by simp, fun _ => rfl⟩
      (splitSl_no_slash p),
    ?_, ?_, ?_⟩
  · intro hL
    by_contra hslc
    have hsl0 : initSlashes p = 0 := by omega
    apply hnd
    simp only [normpath]
    rw [if_neg hp, hL, hsl0]
    simp [joinSl]
  · have hpn : pnorm p = normpath p := by
      unfold pnorm
      rw [if_neg hnd]
    rw [hpn]
    by_cases hr : List.replicate (initSlashes p) '/' ++
        joinSl (normSegs (decide (1 ≤ initSlashes p)) [] (splitSl p)) = []
    · exfalso
      apply hnd
      simp only [normpath]
      rw [if_neg hp, if_pos hr]
    · simp only [normpath]
      rw [if_neg hp, if_neg hr]
  · intro s hs ch hch
    rcases normSegs_mem _ _ _ s hs with h1 | h1
    · cases h1
    · exact splitSl_chars p s h1 ch hch

theorem pnorm_idem (p : List Char) : pnorm (pnorm p) = pnorm p := by
  by_cases h : pnorm p = []
  · rw [h]
    exact pnorm_nil
  · obtain ⟨sl, L, hsl, hg, hnz, heq, -⟩ := pnorm_struct p h
    obtain ⟨hfix, hdot⟩ := normpath_fix sl L hsl hg hnz
    rw [heq]
    unfold pnorm
    rw [hfix, if_neg hdot]

theorem pnorm_glue (p pr : List Char) (hpr : '/' ∉ pr) :
    pnorm (pnorm p ++ ';' :: pr) = pnorm p ++ ';' :: pr := by
  have hsufsl : '/' ∉ ';' :: pr := by
    intro hm
    rcases List.mem_cons.mp hm with h2 | h2
    · exact absurd h2 (by decide)
    · exact hpr h2
  have hch : ';' ∈ ';' :: pr := List.mem_cons_self _ _
  have hchd : (';' : Char) ≠ '.' := by decide
  have hsufseg : ∀ s ∈ [';' :: pr], GoodSeg s ∧ s ≠ dd := by
    intro s hs
    have hseq : s = ';' :: pr := by simpa using hs
    rw [hseq]
    refine ⟨⟨by simp, ?_, hsufsl⟩, ?_⟩
    · intro he
      injection he with he1 he2
      exact absurd he1 (by decide)
    · intro he
      injection he with he1 he2
      exact absurd he1 (by decide)
  by_cases h : pnorm p = []
  · rw [h, List.nil_append]
    obtain ⟨hfix, hdot⟩ := normpath_fix 0 [';' :: pr] (by omega)
      ⟨0, [';' :: pr], rfl, hsufseg, fun _ => rfl⟩ (by simp)
    have hfix2 : normpath (';' :: pr) = ';' :: pr := by
      simpa [joinSl_singleton] using hfix
    have hdot2 : (';' :: pr) ≠ ['.'] := by
      intro he
      apply hdot
      simp [joinSl_singleton, he]
    unfold pnorm
    rw [hfix2, if_neg hdot2]
  · obtain ⟨sl, L, hsl, hg, hnz, heq, -⟩ := pnorm_struct p h
    by_cases hL : L = []
    · subst hL
      rw [heq]
      obtain ⟨hfix, hdot⟩ := normpath_fix sl [';' :: pr] hsl
        ⟨0, [';' :: pr], rfl, hsufseg, fun _ => rfl⟩ (by simp)
      have harg : List.replicate sl '/' ++ joinSl ([] : List (List Char)) ++
          ';' :: pr = List.replicate sl '/' ++ joinSl [';' :: pr] := by
        simp [joinSl, joinSl_singleton]
      rw [harg]
      unfold pnorm
      rw [hfix, if_neg hdot]
    · rw [heq]
      have hge : GoodStack (decide (1 ≤ sl)) (extendLast (';' :: pr) L) := by
        obtain ⟨k, M, hLk, hM, hk⟩ := hg
        subst hLk
        by_cases hMne : M = []
        · subst hMne
          rw [List.append_nil] at hL ⊢
          cases k with
          | zero => simp at hL
          | succ k' =>
            rw [extendLast_replicate]
            refine ⟨k', [dd ++ ';' :: pr], rfl, ?_, fun habs =>
              absurd (hk habs) (Nat.succ_ne_zero k')⟩
            intro s hs
            have hseq : s = dd ++ ';' :: pr := by simpa using hs
            rw [hseq]
            obtain ⟨h1, h2, h3⟩ := seg_with_mem_ne (s := dd) hch hchd
            refine ⟨⟨h1, h2, ?_⟩, h3⟩
            intro hm
            rcases List.mem_append.mp hm with hm | hm
            · exact absurd hm (by decide)
            · exact hsufsl hm
        · rw [extendLast_append _ _ _ hMne]
          exact ⟨k, extendLast (';' :: pr) M, rfl,
            extendLast_good hch hchd hsufsl M hM, hk⟩
      obtain ⟨hfix, hdot⟩ := normpath_fix sl (extendLast (';' :: pr) L) hsl hge
        (fun habs => absurd habs (extendLast_ne_nil _ L))
      have harg : List.replicate sl '/' ++ joinSl L ++ ';' :: pr =
          List.replicate sl '/' ++ joinSl (extendLast (';' :: pr) L) := by
        rw [joinSl_extendLast _ L hL, List.append_assoc]
      rw [harg]
      unfold pnorm
      rw [hfix, if_neg hdot]

theorem pnorm_abs (t : List Char) : pnorm ('/' :: t) ≠ [] ∧
    (pnorm ('/' :: t)).take 1 = ['/'] := by
  have h1 := initSlashes_pos t
  obtain ⟨m, hm⟩ := Nat.exists_eq_add_of_le h1
  have hshape : ∃ r : List Char, normpath ('/' :: t) = '/' :: r := by
    simp only [normpath]
    rw [if_neg (by simp), hm, Nat.add_comm 1 m, List.replicate_succ,
      List.cons_append]
    rw [if_neg (by simp)]
    exact ⟨_, rfl⟩
  obtain ⟨r, hr⟩ := hshape
  have hdot : normpath ('/' :: t) ≠ ['.'] := by
    rw [hr]
    intro he
    injection he with he1 he2
    exact absurd he1 (by decide)
  unfold pnorm
  rw [if_neg hdot, hr]
  exact ⟨by simp, by simp⟩

theorem pnorm_chars {c : Char} {p : List Char} (h : c ∈ pnorm p) :
    c = '/' ∨ c ∈ p := by
  by_cases h0 : pnorm p = []
  · rw [h0] at h
    cases h
  · obtain ⟨sl, L, -, -, -, heq, hchars⟩ := pnorm_struct p h0
    rw [heq] at h
    rcases List.mem_append.mp h with h1 | h1
    · exact Or.inl (List.eq_of_mem_replicate h1)
    · rcases mem_joinSl h1 with h2 | ⟨s, hs, hcs⟩
      · exact Or.inl h2
      · exact Or.inr (hchars s hs c hcs)

/-! ## Lemmas on the urlsplit steps -/

theorem takeWhile_append_all {A B : List Char} {p : Char → Bool}
    (hA : ∀ a ∈ A, p a = true) :
    (A ++ B).takeWhile p = A ++ B.takeWhile p ∧
    (A ++ B).dropWhile p = B.dropWhile p := by
  induction A with
  | nil => simp
  | cons x t ih =>
    obtain ⟨ih1, ih2⟩ := ih (fun a ha => hA a (List.mem_cons_of_mem x ha))
    have hx : p x = true := hA x (List.mem_cons_self x t)
    constructor
    · simp [List.takeWhile_cons, hx, ih1]
    · simp [List.dropWhile_cons, hx, ih2]

theorem mem_of_mem_takeWhile {a : Char} {l : List Char} {p : Char → Bool}
    (h : a ∈ l.takeWhile p) : a ∈ l :=
  (List.takeWhile_sublist p).subset h

theorem mem_of_mem_dropWhile {a : Char} {l : List Char} {p : Char → Bool}
    (h : a ∈ l.dropWhile p) : a ∈ l :=
  (List.dropWhile_sublist p).subset h

theorem mem_of_mem_drop {a : Char} {l : List Char} {n : Nat}
    (h : a ∈ l.drop n) : a ∈ l :=
  (List.drop_sublist n l).subset h

theorem dropWhile_head_false {p : Char → Bool} :
    ∀ {l : List Char} {x : Char} {t : List Char},
      l.dropWhile p = x :: t → p x = false := by
  intro l
  induction l with
  | nil => intro x t h; cases h
  | cons y ys ih =>
    intro x t h
    rw [List.dropWhile_cons] at h
    by_cases hy : p y
    · rw [if_pos hy] at h
      exact ih h
    · rw [if_neg hy] at h
      injection h with h1 _
      rw [← h1]
      exact Bool.eq_false_iff.mpr hy

theorem splitFragment_append {A B : List Char} (hA : '#' ∉ A) :
    splitFragment (A ++ '#' :: B) = (A, B) := by
  unfold splitFragment
  rw [if_pos (List.mem_append_right A (List.mem_cons_self _ _))]
  obtain ⟨h1, h2⟩ := takeWhile_append_notin hA
  rw [h1, h2]

theorem splitFragment_none {A : List Char} (hA : '#' ∉ A) :
    splitFragment A = (A, []) := by
  unfold splitFragment
  rw [if_neg hA]

theorem splitQuery_append {A B : List Char} (hA : '?' ∉ A) :
    splitQuery (A ++ '?' :: B) = (A, B) := by
  unfold splitQuery
  rw [if_pos (List.mem_append_right A (List.mem_cons_self _ _))]
  obtain ⟨h1, h2⟩ := takeWhile_append_notin hA
  rw [h1, h2]

theorem splitQuery_none {A : List Char} (hA : '?' ∉ A) :
    splitQuery A = (A, []) := by
  unfold splitQuery
  rw [if_neg hA]

theorem splitNetloc_none {r : List Char} (h : ¬ r.take 2 = ['/', '/']) :
    splitNetloc r = ([], r) := by
  unfold splitNetloc
  rw [if_neg h]

theorem splitNetloc_found {n rest : List Char}
    (hn : ∀ ch ∈ n, ch ≠ '/' ∧ ch ≠ '?' ∧ ch ≠ '#')
    (hrest : rest = [] ∨ ∃ c t, rest = c :: t ∧ (c = '/' ∨ c = '?' ∨ c = '#')) :
    splitNetloc ('/' :: '/' :: (n ++ rest)) = (n, rest) := by
  unfold splitNetloc
  rw [if_pos (by simp)]
  have hdrop : (('/' : Char) :: '/' :: (n ++ rest)).drop 2 = n ++ rest := rfl
  rw [hdrop]
  have hall : ∀ a ∈ n, (fun c => !(c == '/' || c == '?' || c == '#')) a = true := by
    intro a ha
    obtain ⟨h1, h2, h3⟩ := hn a ha
    simp [h1, h2, h3]
  obtain ⟨t1, t2⟩ := takeWhile_append_all (B := rest) hall
  rw [t1, t2]
  have htr1 : rest.takeWhile (fun c => !(c == '/' || c == '?' || c == '#')) = [] := by
    rcases hrest with rfl | ⟨c, t, rfl, hc⟩
    · simp
    · rw [List.takeWhile_cons]
      rcases hc with rfl | rfl | rfl <;> simp
  have htr2 : rest.dropWhile (fun c => !(c == '/' || c == '?' || c == '#')) = rest := by
    rcases hrest with rfl | ⟨c, t, rfl, hc⟩
    · simp
    · rw [List.dropWhile_cons]
      rcases hc with rfl | rfl | rfl <;> simp
  rw [htr1, htr2, List.append_nil]

theorem splitScheme_file {R : List Char}
    (hdig : R = [] ∨ R.all isDigitChar = false) :
    splitScheme (pystr "file" ++ ':' :: R) = (pystr "file", R) := by
  simp only [splitScheme]
  have hnotin : ':' ∉ pystr "file" := by decide
  obtain ⟨h1, h2⟩ := takeWhile_append_notin (B := R) hnotin
  rw [h1]
  rw [if_pos (show (pystr "file").length < (pystr "file" ++ ':' :: R).length ∧
    pystr "file" ≠ [] from ⟨by simp [pystr], by decide⟩)]
  have hdrop : (pystr "file" ++ ':' :: R).drop ((pystr "file").length + 1) = R := by
    have hlen : (pystr "file").length + 1 = (pystr "file" ++ [':']).length := by
      simp [pystr]
    rw [hlen, show pystr "file" ++ ':' :: R = (pystr "file" ++ [':']) ++ R by simp]
    exact List.drop_left _ _
  rw [hdrop]
  rw [if_neg (by decide), if_pos (by decide), if_pos hdig]
  rw [show List.map pyLower (pystr "file") = pystr "file" from by decide]

/-! ## Invariants of every URN.Parse result -/

theorem takeWhile_cons_pos {p : Char → Bool} {c : Char} (hc : p c = true)
    (t : List Char) : (c :: t).takeWhile p = c :: t.takeWhile p := by
  simp [List.takeWhile_cons, hc]

theorem takeWhile_cons_neg {p : Char → Bool} {c : Char} (hc : p c = false)
    (t : List Char) : (c :: t).takeWhile p = [] := by
  simp [List.takeWhile_cons, hc]

theorem splitFragment_fst_no (r : List Char) : '#' ∉ (splitFragment r).1 := by
  unfold splitFragment
  by_cases h : '#' ∈ r
  · rw [if_pos h]
    intro hmem
    have h2 := mem_takeWhile_pred hmem
    simp at h2
  · rw [if_neg h]
    exact h

theorem splitFragment_fst_sub (r : List Char) :
    ∀ c ∈ (splitFragment r).1, c ∈ r := by
  unfold splitFragment
  by_cases h : '#' ∈ r
  · rw [if_pos h]
    exact fun c hc => mem_of_mem_takeWhile hc
  · rw [if_neg h]
    exact fun c hc => hc

theorem splitFragment_fst_cons {c : Char} (hc : c ≠ '#') (t : List Char) :
    ∃ s, (splitFragment (c :: t)).1 = c :: s := by
  unfold splitFragment
  by_cases h : '#' ∈ c :: t
  · rw [if_pos h]
    refine ⟨t.takeWhile (fun x => x != '#'), ?_⟩
    exact takeWhile_cons_pos (p := fun x => x != '#') (c := c)
      (bne_iff_ne.mpr hc) t
  · rw [if_neg h]
    exact ⟨t, rfl⟩

theorem splitFragment_fst_hash (t : List Char) :
    (splitFragment ('#' :: t)).1 = [] := by
  unfold splitFragment
  rw [if_pos (List.mem_cons_self _ _)]
  exact takeWhile_cons_neg (p := fun x => x != '#') (c := '#') (by decide) t

theorem splitQuery_fst_no (r : List Char) : '?' ∉ (splitQuery r).1 := by
  unfold splitQuery
  by_cases h : '?' ∈ r
  · rw [if_pos h]
    intro hmem
    have h2 := mem_takeWhile_pred hmem
    simp at h2
  · rw [if_neg h]
    exact h

theorem splitQuery_fst_sub (r : List Char) :
    ∀ c ∈ (splitQuery r).1, c ∈ r := by
  unfold splitQuery
  by_cases h : '?' ∈ r
  · rw [if_pos h]
    exact fun c hc => mem_of_mem_takeWhile hc
  · rw [if_neg h]
    exact fun c hc => hc

theorem splitQuery_snd_sub (r : List Char) :
    ∀ c ∈ (splitQuery r).2, c ∈ r := by
  unfold splitQuery
  by_cases h : '?' ∈ r
  · rw [if_pos h]
    exact fun c hc => mem_of_mem_dropWhile (mem_of_mem_drop hc)
  · rw [if_neg h]
    intro c hc
    cases hc

theorem splitQuery_fst_cons {c : Char} (hc : c ≠ '?') (t : List Char) :
    ∃ s, (splitQuery (c :: t)).1 = c :: s := by
  unfold splitQuery
  by_cases h : '?' ∈ c :: t
  · rw [if_pos h]
    refine ⟨t.takeWhile (fun x => x != '?'), ?_⟩
    exact takeWhile_cons_pos (p := fun x => x != '?') (c := c)
      (bne_iff_ne.mpr hc) t
  · rw [if_neg h]
    exact ⟨t, rfl⟩

theorem splitQuery_fst_question (t : List Char) :
    (splitQuery ('?' :: t)).1 = [] := by
  unfold splitQuery
  rw [if_pos (List.mem_cons_self _ _)]
  exact takeWhile_cons_neg (p := fun x => x != '?') (c := '?') (by decide) t

theorem splitNetloc_fst_pred (r : List Char) :
    ∀ ch ∈ (splitNetloc r).1, ch ≠ '/' ∧ ch ≠ '?' ∧ ch ≠ '#' := by
  unfold splitNetloc
  by_cases h : r.take 2 = ['/', '/']
  · rw [if_pos h]
    intro ch hch
    have h2 := mem_takeWhile_pred hch
    simp only [Bool.not_eq_true', Bool.or_eq_false_iff, beq_eq_false_iff_ne,
      ne_eq] at h2
    exact ⟨h2.1.1, h2.1.2, h2.2⟩
  · rw [if_neg h]
    intro ch hch
    cases hch

theorem splitNetloc_snd_shape (r : List Char) :
    ((splitNetloc r).2 = r ∧ (splitNetloc r).1 = []) ∨
    ((splitNetloc r).2 = [] ∨ ∃ c t, (splitNetloc r).2 = c :: t ∧
      (c = '/' ∨ c = '?' ∨ c = '#')) := by
  unfold splitNetloc
  by_cases h : r.take 2 = ['/', '/']
  · rw [if_pos h]
    right
    cases hd : (r.drop 2).dropWhile (fun c => !(c == '/' || c == '?' || c == '#')) with
    | nil => exact Or.inl rfl
    | cons x t =>
      refine Or.inr ⟨x, t, rfl, ?_⟩
      have h2 := dropWhile_head_false hd
      by_contra hcon
      push_neg at hcon
      obtain ⟨hc1, hc2, hc3⟩ := hcon
      simp [hc1, hc2, hc3] at h2
  · rw [if_neg h]
    exact Or.inl ⟨rfl, rfl⟩

theorem afterLastSlash_no_slash (l : List Char) : '/' ∉ afterLastSlash l := by
  unfold afterLastSlash
  intro h
  rw [List.mem_reverse] at h
  have h2 := mem_takeWhile_pred h
  simp at h2

theorem afterLastSlash_sub (l : List Char) : ∀ c ∈ afterLastSlash l, c ∈ l := by
  unfold afterLastSlash
  intro c hc
  rw [List.mem_reverse] at hc
  have h2 := mem_of_mem_takeWhile hc
  rwa [List.mem_reverse] at h2

theorem afterLastSlash_len {l : List Char} (h : '/' ∈ l) :
    (afterLastSlash l).length < l.length := by
  unfold afterLastSlash
  rw [List.length_reverse]
  by_contra hge
  push_neg at hge
  have hsub := List.takeWhile_sublist (l := l.reverse) (fun c => c != '/')
  have hlen := hsub.length_le
  rw [List.length_reverse] at hlen
  have heq : l.reverse.takeWhile (fun c => c != '/') = l.reverse :=
    hsub.eq_of_length (by rw [List.length_reverse]; omega)
  have hall := List.takeWhile_eq_self_iff.mp heq
  have h2 := hall '/' (List.mem_reverse.mpr h)
  simp at h2

theorem take_one_append {A B : List Char} (h : A ≠ []) :
    (A ++ B).take 1 = A.take 1 := by
  cases A with
  | nil => exact absurd rfl h
  | cons a t => simp

theorem splitparams_snd_no_slash (url : List Char) :
    '/' ∉ (splitparams url).2 := by
  unfold splitparams
  by_cases h : '/' ∈ url
  · rw [if_pos h]
    by_cases h2 : ';' ∈ afterLastSlash url
    · rw [if_pos h2]
      intro hmem
      exact afterLastSlash_no_slash url
        (mem_of_mem_dropWhile (mem_of_mem_drop hmem))
    · rw [if_neg h2]
      intro hmem
      cases hmem
  · rw [if_neg h]
    intro hmem
    exact h (mem_of_mem_dropWhile (mem_of_mem_drop hmem))

theorem splitparams_snd_sub (url : List Char) :
    ∀ c ∈ (splitparams url).2, c ∈ url := by
  unfold splitparams
  by_cases h : '/' ∈ url
  · rw [if_pos h]
    by_cases h2 : ';' ∈ afterLastSlash url
    · rw [if_pos h2]
      intro c hmem
      exact afterLastSlash_sub url c
        (mem_of_mem_dropWhile (mem_of_mem_drop hmem))
    · rw [if_neg h2]
      intro c hmem
      cases hmem
  · rw [if_neg h]
    exact fun c hmem => mem_of_mem_dropWhile (mem_of_mem_drop hmem)

theorem splitparams_fst_sub (url : List Char) :
    ∀ c ∈ (splitparams url).1, c ∈ url := by
  unfold splitparams
  by_cases h : '/' ∈ url
  · rw [if_pos h]
    by_cases h2 : ';' ∈ afterLastSlash url
    · rw [if_pos h2]
      intro c hmem
      rcases List.mem_append.mp hmem with hm | hm
      · exact (List.take_sublist _ _).subset hm
      · exact afterLastSlash_sub url c (mem_of_mem_takeWhile hm)
    · rw [if_neg h2]
      exact fun c hm => hm
  · rw [if_neg h]
    exact fun c hm => mem_of_mem_takeWhile hm

theorem splitparams_fst_abs {url : List Char} (h : '/' ∈ url)
    (habs : url.take 1 = ['/']) :
    (splitparams url).1 ≠ [] ∧ ((splitparams url).1).take 1 = ['/'] := by
  have hlt := afterLastSlash_len h
  have hurlne : url ≠ [] := by
    intro he
    rw [he] at h
    cases h
  unfold splitparams
  rw [if_pos h]
  by_cases h2 : ';' ∈ afterLastSlash url
  · rw [if_pos h2]
    have htake_ne : url.take (url.length - (afterLastSlash url).length) ≠ [] := by
      intro he
      have hlen := congrArg List.length he
      simp [List.length_take] at hlen
      omega
    constructor
    · intro he
      exact htake_ne (List.append_eq_nil.mp he).1
    · rw [take_one_append htake_ne, ← habs, List.take_take]
      congr 1
      omega
  · rw [if_neg h2]
    exact ⟨hurlne, habs⟩

theorem parse_inv (u : URN) : ParseInv u.Parse := by
  have hps : pysplit u.value = ⟨(splitScheme u.value).1,
      (splitNetloc (splitScheme u.value).2).1,
      (splitQuery (splitFragment (splitNetloc (splitScheme u.value).2).2).1).1,
      (splitQuery (splitFragment (splitNetloc (splitScheme u.value).2).2).1).2,
      (splitFragment (splitNetloc (splitScheme u.value).2).2).2⟩ := rfl
  set N2 := (splitFragment (splitNetloc (splitScheme u.value).2).2).1 with hN2
  -- facts about the urlsplit result
  have hG1a : '#' ∉ (pysplit u.value).path := by
    rw [hps]
    intro hm
    exact splitFragment_fst_no _ (splitQuery_fst_sub N2 '#' hm)
  have hG1b : '?' ∉ (pysplit u.value).path := by
    rw [hps]
    exact splitQuery_fst_no N2
  have hG2 : ∀ ch ∈ (pysplit u.value).netloc, ch ≠ '/' ∧ ch ≠ '?' ∧ ch ≠ '#' := by
    rw [hps]
    exact splitNetloc_fst_pred _
  have hG3 : '#' ∉ (pysplit u.value).query := by
    rw [hps]
    intro hm
    exact splitFragment_fst_no _ (splitQuery_snd_sub N2 '#' hm)
  have hG5 : (pysplit u.value).netloc ≠ [] →
      (pysplit u.value).path = [] ∨ (pysplit u.value).path.take 1 = ['/'] := by
    rw [hps]
    intro hnl
    rcases splitNetloc_snd_shape (splitScheme u.value).2 with ⟨-, hempty⟩ | hshape
    · exact absurd hempty hnl
    · rcases hshape with hnil | ⟨c, t, hct, hc⟩
      · left
        rw [hN2, hnil]
        rw [show splitFragment [] = ([], []) from rfl]
        rfl
      · rw [hN2, hct]
        rcases hc with rfl | rfl | rfl
        · right
          obtain ⟨s1, hs1⟩ := splitFragment_fst_cons (c := '/') (by decide) t
          rw [hs1]
          obtain ⟨s2, hs2⟩ := splitQuery_fst_cons (c := '/') (by decide) s1
          rw [hs2]
          rfl
        · left
          obtain ⟨s1, hs1⟩ := splitFragment_fst_cons (c := '?') (by decide) t
          rw [hs1, splitQuery_fst_question]
        · left
          rw [splitFragment_fst_hash]
          rw [show splitQuery [] = ([], []) from rfl]
  -- facts about the urlparse result
  have hpath : (pyparse u.value).path = (pysplit u.value).path ∨
      ((pyparse u.value).path = (splitparams (pysplit u.value).path).1 ∧
        (pyparse u.value).params = (splitparams (pysplit u.value).path).2 ∧
        ';' ∈ (pysplit u.value).path) := by
    simp only [pyparse]
    split
    · next hguard => exact Or.inr ⟨rfl, rfl, hguard.2⟩
    · exact Or.inl rfl
  have hparams : (pyparse u.value).params = [] ∨
      (pyparse u.value).params = (splitparams (pysplit u.value).path).2 := by
    simp only [pyparse]
    split
    · exact Or.inr rfl
    · exact Or.inl rfl
  have hnetloc : (pyparse u.value).netloc = (pysplit u.value).netloc := by
    simp only [pyparse]
    split <;> rfl
  have hquery : (pyparse u.value).query = (pysplit u.value).query := by
    simp only [pyparse]
    split <;> rfl
  have hF1a : '#' ∉ (pyparse u.value).path := by
    rcases hpath with he | ⟨he, -, -⟩ <;> rw [he]
    · exact hG1a
    · intro hm
      exact hG1a (splitparams_fst_sub _ '#' hm)
  have hF1b : '?' ∉ (pyparse u.value).path := by
    rcases hpath with he | ⟨he, -, -⟩ <;> rw [he]
    · exact hG1b
    · intro hm
      exact hG1b (splitparams_fst_sub _ '?' hm)
  have hF4 : '/' ∉ (pyparse u.value).params ∧ '#' ∉ (pyparse u.value).params ∧
      '?' ∉ (pyparse u.value).params := by
    rcases hparams with he | he <;> rw [he]
    · exact ⟨by simp, by simp, by simp⟩
    · exact ⟨splitparams_snd_no_slash _,
        fun hm => hG1a (splitparams_snd_sub _ '#' hm),
        fun hm => hG1b (splitparams_snd_sub _ '?' hm)⟩
  have hF5 : (pyparse u.value).netloc ≠ [] →
      ((pyparse u.value).path = [] ∧ (pyparse u.value).params = []) ∨
        (pyparse u.value).path.take 1 = ['/'] := by
    rw [hnetloc]
    intro hnl
    rcases hG5 hnl with hp0 | hp0
    · left
      rcases hpath with he | ⟨-, -, hsemi⟩
      · constructor
        · rw [he, hp0]
        · rcases hparams with hq | hq
          · exact hq
          · rw [hq]
            -- params ⊆ S.path = [] so params = []
            cases hx : (splitparams (pysplit u.value).path).2 with
            | nil => rfl
            | cons a b =>
              have hmem : a ∈ (pysplit u.value).path :=
                splitparams_snd_sub _ a (by rw [hx]; exact List.mem_cons_self a b)
              rw [hp0] at hmem
              cases hmem
      · rw [hp0] at hsemi
        cases hsemi
    · right
      have hsl : '/' ∈ (pysplit u.value).path := by
        cases hpp : (pysplit u.value).path with
        | nil =>
          rw [hpp] at hp0
          cases hp0
        | cons a b =>
          rw [hpp] at hp0
          simp at hp0
          rw [hp0]
          exact List.mem_cons_self _ _
      rcases hpath with he | ⟨he, -, -⟩ <;> rw [he]
      · exact hp0
      · exact (splitparams_fst_abs hsl hp0).2
  -- transfer to URN.Parse through path normalization and scheme defaulting
  have hParse : u.Parse.path = pnorm (pyparse u.value).path ∧
      u.Parse.netloc = (pyparse u.value).netloc ∧
      u.Parse.params = (pyparse u.value).params ∧
      u.Parse.query = (pyparse u.value).query := by
    simp only [URN.Parse]
    split <;> exact ⟨rfl, rfl, rfl, rfl⟩
  obtain ⟨hPp, hPn, hPr, hPq⟩ := hParse
  refine ⟨⟨?_, ?_⟩, ?_, ?_, ?_, ?_, ?_, ?_⟩
  · rw [hPp]
    intro hm
    rcases pnorm_chars hm with he | he
    · exact absurd he (by decide)
    · exact hF1a he
  · rw [hPp]
    intro hm
    rcases pnorm_chars hm with he | he
    · exact absurd he (by decide)
    · exact hF1b he
  · rw [hPn, hnetloc]
    exact hG2
  · rw [hPq, hquery]
    exact hG3
  · rw [hPr]
    exact hF4
  · rw [hPp]
    exact pnorm_idem _
  · rw [hPp, hPr]
    intro hpr
    exact pnorm_glue _ _ hF4.1
  · rw [hPn, hPp, hPr]
    intro hnl
    rcases hF5 hnl with ⟨hp0, hr0⟩ | hp0
    · left
      rw [hp0, hr0]
      exact ⟨pnorm_nil, rfl⟩
    · right
      cases hpp : (pyparse u.value).path with
      | nil =>
        rw [hpp] at hp0
        cases hp0
      | cons a b =>
        rw [hpp] at hp0
        simp at hp0
        rw [hp0]
        exact (pnorm_abs b).2

/-! ## Re-parsing the serialized form of a file-scheme URN -/

theorem take2_slashes_iff (R : List Char) :
    R.take 2 = ['/', '/'] ↔ ∃ t, R = '/' :: '/' :: t := by
  constructor
  · intro h
    cases R with
    | nil => cases h
    | cons a R1 =>
      cases R1 with
      | nil => simp at h
      | cons b R2 =>
        simp at h
        exact ⟨R2, by rw [h.1, h.2]⟩
  · rintro ⟨t, rfl⟩
    rfl

theorem qf_shape (q f : List Char) :
    (if q ≠ [] then '?' :: q else []) ++ (if f ≠ [] then '#' :: f else []) = [] ∨
    ∃ ch t, (if q ≠ [] then '?' :: q else []) ++
        (if f ≠ [] then '#' :: f else []) = ch :: t ∧ (ch = '?' ∨ ch = '#') := by
  by_cases hq : q ≠ []
  · rw [if_pos hq]
    exact Or.inr ⟨'?', q ++ _, List.cons_append _ _ _, Or.inl rfl⟩
  · rw [if_neg hq, List.nil_append]
    by_cases hf : f ≠ []
    · rw [if_pos hf]
      exact Or.inr ⟨'#', f, rfl, Or.inr rfl⟩
    · rw [if_neg hf]
      exact Or.inl rfl

theorem urlunsplit_file (nl url q f : List Char) :
    urlunsplit (pystr "file") nl url q f =
      pystr "file" ++ ':' ::
        ((if nl ≠ [] ∨ (url ≠ [] ∧ url.take 2 = ['/', '/']) then
          '/' :: '/' :: (nl ++ url) else url) ++
        ((if q ≠ [] then '?' :: q else []) ++
         (if f ≠ [] then '#' :: f else []))) := by
  simp only [urlunsplit]
  rw [if_pos (show pystr "file" ≠ [] by decide)]
  by_cases hq : q ≠ [] <;> by_cases hf : f ≠ [] <;>
    simp [hq, hf, List.append_assoc]

theorem unparse_reparse (c : ParseResult) (hinv : ParseInv c)
    (hfile : c.scheme = pystr "file")
    (hdig : (urlunparse c).drop 5 = [] ∨
      ((urlunparse c).drop 5).all isDigitChar = false) :
    URN.SerializeToString (URN.Set (urlunparse c)) = urlunparse c := by
  obtain ⟨sc, nl, pa, pr, q, f⟩ := c
  obtain ⟨⟨hp1, hp2⟩, hn, hq3, ⟨hr1, hr2, hr3⟩, hnorm, hglue, hshape⟩ := hinv
  simp only at hp1 hp2 hn hq3 hr1 hr2 hr3 hnorm hglue hshape hfile hdig
  subst hfile
  -- the path with params folded back, and the optional query/fragment parts
  set url1 : List Char := if pr ≠ [] then pa ++ ';' :: pr else pa with hurl1
  set optq : List Char := if q ≠ [] then '?' :: q else [] with hoptq
  set optf : List Char := if f ≠ [] then '#' :: f else [] with hoptf
  -- facts about url1
  have hu_hash : '#' ∉ url1 := by
    rw [hurl1]
    split
    · intro hm
      rcases List.mem_append.mp hm with hm | hm
      · exact hp1 hm
      · rcases List.mem_cons.mp hm with he | hm
        · exact absurd he (by decide)
        · exact hr2 hm
    · exact hp1
  have hu_q : '?' ∉ url1 := by
    rw [hurl1]
    split
    · intro hm
      rcases List.mem_append.mp hm with hm | hm
      · exact hp2 hm
      · rcases List.mem_cons.mp hm with he | hm
        · exact absurd he (by decide)
        · exact hr3 hm
    · exact hp2
  have hu_norm : pnorm url1 = url1 := by
    rw [hurl1]
    split
    · next hpr => exact hglue hpr
    · exact hnorm
  have hu_abs : nl ≠ [] → url1 = [] ∨ ∃ x, url1 = '/' :: x := by
    intro hnl
    rcases hshape hnl with ⟨hpa0, hpr0⟩ | hpa1
    · left
      rw [hurl1, hpr0, hpa0]
      simp
    · right
      have hpa : ∃ pa', pa = '/' :: pa' := by
        cases hpp : pa with
        | nil =>
          rw [hpp] at hpa1
          cases hpa1
        | cons a b =>
          rw [hpp] at hpa1
          simp at hpa1
          exact ⟨b, by rw [hpa1]⟩
      obtain ⟨pa', hpa'⟩ := hpa
      rw [hurl1, hpa']
      split
      · exact ⟨pa' ++ ';' :: pr, List.cons_append _ _ _⟩
      · exact ⟨pa', rfl⟩
  have hqmem : '#' ∉ url1 ++ optq := by
    intro hm
    rcases List.mem_append.mp hm with hm | hm
    · exact hu_hash hm
    · rw [hoptq] at hm
      by_cases hq0 : q ≠ []
      · rw [if_pos hq0] at hm
        rcases List.mem_cons.mp hm with he | hm
        · exact absurd he (by decide)
        · exact hq3 hm
      · rw [if_neg hq0] at hm
        cases hm
  -- the serialized string and its scheme-splitting
  have ht : urlunparse ⟨pystr "file", nl, pa, pr, q, f⟩ =
      pystr "file" ++ ':' ::
        ((if nl ≠ [] ∨ (url1 ≠ [] ∧ url1.take 2 = ['/', '/']) then
          '/' :: '/' :: (nl ++ url1) else url1) ++ (optq ++ optf)) := by
    rw [show urlunparse ⟨pystr "file", nl, pa, pr, q, f⟩ =
      urlunsplit (pystr "file") nl url1 q f from rfl]
    rw [urlunsplit_file, hoptq, hoptf]
  have hdrop5 : ∀ R : List Char, (pystr "file" ++ ':' :: R).drop 5 = R := by
    intro R
    rw [show pystr "file" ++ ':' :: R = (pystr "file" ++ [':']) ++ R by simp]
    rw [show (5 : Nat) = (pystr "file" ++ [':']).length by decide]
    exact List.drop_left _ _
  have hdig' : ((if nl ≠ [] ∨ (url1 ≠ [] ∧ url1.take 2 = ['/', '/']) then
      '/' :: '/' :: (nl ++ url1) else url1) ++ (optq ++ optf)) = [] ∨
      ((if nl ≠ [] ∨ (url1 ≠ [] ∧ url1.take 2 = ['/', '/']) then
        '/' :: '/' :: (nl ++ url1) else url1) ++ (optq ++ optf)).all
          isDigitChar = false := by
    rw [ht, hdrop5] at hdig
    exact hdig
  have e1 := splitScheme_file hdig'
  -- the netloc-splitting step recovers the authority
  have e2 : splitNetloc ((if nl ≠ [] ∨ (url1 ≠ [] ∧ url1.take 2 = ['/', '/'])
      then '/' :: '/' :: (nl ++ url1) else url1) ++ (optq ++ optf)) =
      (nl, url1 ++ (optq ++ optf)) := by
    by_cases hb : nl ≠ [] ∨ (url1 ≠ [] ∧ url1.take 2 = ['/', '/'])
    · rw [if_pos hb]
      rw [show ('/' :: '/' :: (nl ++ url1)) ++ (optq ++ optf) =
        '/' :: '/' :: (nl ++ (url1 ++ (optq ++ optf))) by simp]
      apply splitNetloc_found hn
      have hu : url1 = [] ∨ ∃ x, url1 = '/' :: x := by
        rcases hb with hnl | ⟨hune, h2⟩
        · exact hu_abs hnl
        · obtain ⟨t, hteq⟩ := (take2_slashes_iff url1).mp h2
          exact Or.inr ⟨'/' :: t, hteq⟩
      rcases hu with hu0 | ⟨x, hux⟩
      · rw [hu0, List.nil_append, hoptq, hoptf]
        rcases qf_shape q f with hqf | ⟨ch, t, hct, hch⟩
        · exact Or.inl hqf
        · refine Or.inr ⟨ch, t, hct, ?_⟩
          rcases hch with rfl | rfl
          · exact Or.inr (Or.inl rfl)
          · exact Or.inr (Or.inr rfl)
      · rw [hux, List.cons_append]
        exact Or.inr ⟨'/', x ++ (optq ++ optf), rfl, Or.inl rfl⟩
    · rw [if_neg hb]
      push_neg at hb
      obtain ⟨hnl0, hb2⟩ := hb
      rw [hnl0]
      apply splitNetloc_none
      intro h2
      obtain ⟨t, hteq⟩ := (take2_slashes_iff _).mp h2
      cases hu1 : url1 with
      | nil =>
        rw [hu1, List.nil_append, hoptq, hoptf] at hteq
        rcases qf_shape q f with hqf | ⟨ch, tt, hct, hch⟩
        · rw [hqf] at hteq
          cases hteq
        · rw [hct] at hteq
          injection hteq with hx _
          rcases hch with rfl | rfl <;> exact absurd hx (by decide)
      | cons a u2 =>
        cases u2 with
        | nil =>
          rw [hu1, List.cons_append, List.nil_append] at hteq
          injection hteq with ha htail
          rw [hoptq, hoptf] at htail
          rcases qf_shape q f with hqf | ⟨ch, tt, hct, hch⟩
          · rw [hqf] at htail
            cases htail
          · rw [hct] at htail
            injection htail with hx _
            rcases hch with rfl | rfl <;> exact absurd hx (by decide)
        | cons b u3 =>
          rw [hu1, List.cons_append, List.cons_append] at hteq
          injection hteq with ha h2'
          injection h2' with hb' _
          refine hb2 (by rw [hu1]; simp) ?_
          rw [hu1, ha, hb']
          rfl
  -- the fragment- and query-splitting steps
  have e3 : splitFragment (url1 ++ (optq ++ optf)) = (url1 ++ optq, f) := by
    by_cases hf : f ≠ []
    · rw [hoptf, if_pos hf,
        show url1 ++ (optq ++ '#' :: f) = (url1 ++ optq) ++ '#' :: f by simp]
      exact splitFragment_append hqmem
    · push_neg at hf
      rw [hoptf, if_neg (by simp [hf]), List.append_nil, hf]
      exact splitFragment_none hqmem
  have e4 : splitQuery (url1 ++ optq) = (url1, q) := by
    by_cases hq0 : q ≠ []
    · rw [hoptq, if_pos hq0]
      exact splitQuery_append hu_q
    · push_neg at hq0
      rw [hoptq, if_neg (by simp [hq0]), List.append_nil, hq0]
      exact splitQuery_none hu_q
  -- the whole urlsplit of the serialized form
  have hsplit : pysplit (urlunparse ⟨pystr "file", nl, pa, pr, q, f⟩) =
      ⟨pystr "file", nl, url1, q, f⟩ := by
    rw [ht]
    simp only [pysplit, e1, e2, e3, e4]
  have hparse : pyparse (urlunparse ⟨pystr "file", nl, pa, pr, q, f⟩) =
      ⟨pystr "file", nl, url1, [], q, f⟩ := by
    simp only [pyparse, hsplit]
    rw [if_neg]
    rintro ⟨hmem, -⟩
    exact absurd hmem (by decide)
  have hParse2 : (URN.Set (urlunparse ⟨pystr "file", nl, pa, pr, q, f⟩)).Parse =
      ⟨pystr "file", nl, url1, [], q, f⟩ := by
    simp only [URN.Parse, URN.Set, hparse]
    rw [if_neg (show ¬ pystr "file" = [] by decide)]
    simp only [hu_norm]
  show urlunparse (URN.Set (urlunparse ⟨pystr "file", nl, pa, pr, q, f⟩)).Parse =
    urlunparse ⟨pystr "file", nl, pa, pr, q, f⟩
  rw [hParse2]
  rw [show urlunparse (⟨pystr "file", nl, url1, [], q, f⟩ : ParseResult) =
    urlunsplit (pystr "file") nl url1 q f from rfl]
  rw [urlunsplit_file, ht, hoptq, hoptf]

/-! ## Claim C3: the amended idempotence statement -/

/-- Claim C3 as amended: URN(s).serialize() equals
URN(URN(s).serialize()).serialize() for every input string s that parses to
scheme "file" (no scheme given, or scheme file), provided the serialized
form's remainder after "file:" is not a nonempty string of decimal digits
(otherwise Python 2.7's urlsplit host:port heuristic refuses to split the
scheme on re-parsing, as the counterexample shows). -/
theorem serialize_idempotent_file (s : List Char)
    (hfile : (URN.Set s).Parse.scheme = pystr "file")
    (hdig : ((URN.Set s).SerializeToString).drop 5 = [] ∨
      (((URN.Set s).SerializeToString).drop 5).all isDigitChar = false) :
    URN.SerializeToString (URN.Set ((URN.Set s).SerializeToString)) =
      (URN.Set s).SerializeToString :=
  unparse_reparse (URN.Set s).Parse (parse_inv (URN.Set s)) hfile hdig

/-- Witness for the amended claim C3 at the concrete input "/a". -/
theorem serialize_idempotent_file_witness :
    (URN.Set (pystr "/a")).Parse.scheme = pystr "file" ∧
    URN.SerializeToString (URN.Set ((URN.Set (pystr "/a")).SerializeToString)) =
      (URN.Set (pystr "/a")).SerializeToString :=
  ⟨by decide, serialize_idempotent_file (pystr "/a") (by decide)
    (Or.inr (by decide))⟩

/-! ## Claim C10: relativePath of a URN with itself -/

/-- Claim C10: for every URN u, u.relativePath(u) returns the empty string
(some ""), not absence: the prefix test succeeds on equal serialized strings
and the returned suffix is empty. -/
theorem relativePath_self_empty (u : URN) : u.RelativePath u = some [] := by
  unfold URN.RelativePath
  rw [if_pos, List.drop_length]
  exact List.isPrefixOf_iff_prefix.mpr (List.prefix_refl _)

/-! ## Claim C6: relativePath is literal string-prefix removal -/

/-- Claim C6: u.relativePath(v) returns the suffix of v's serialized string
past u's serialized string exactly when the latter is a literal prefix of the
former, and nothing otherwise; in particular relativePath from file:/a to
file:/a/b is "/b" while from file:/x it is absent. -/
theorem relativePath_spec :
    (∀ u v : URN,
      (∀ r : List Char, u.RelativePath v = some r ↔
        v.SerializeToString = u.SerializeToString ++ r) ∧
      (u.RelativePath v = none ↔
        (u.SerializeToString).isPrefixOf v.SerializeToString = false)) ∧
    (URN.Set (pystr "file:/a")).RelativePath (URN.Set (pystr "file:/a/b")) =
      some (pystr "/b") ∧
    (URN.Set (pystr "file:/x")).RelativePath (URN.Set (pystr "file:/a/b")) =
      none := by
  refine ⟨fun u v => ?_, by decide, by decide⟩
  unfold URN.RelativePath
  by_cases h : (u.SerializeToString).isPrefixOf v.SerializeToString
  · obtain ⟨t, ht⟩ := List.isPrefixOf_iff_prefix.mp h
    rw [if_pos h]
    constructor
    · intro r
      constructor
      · rintro hr
        obtain rfl : v.SerializeToString.drop u.SerializeToString.length = r :=
          Option.some.inj hr
        rw [← ht, List.drop_left]
      · intro hv
        rw [hv, List.drop_left]
    · simp [h]
  · rw [if_neg h]
    constructor
    · intro r
      constructor
      · intro hr
        cases hr
      · intro hv
        exact absurd (List.isPrefixOf_iff_prefix.mpr ⟨r, hv.symm⟩) h
    · simp [Bool.eq_false_iff, h]

/-! ## Claim C7: URN equality is equality of serialized canonical forms -/

/-- Claim C7: two URNs are equal (inherited RDFValue equality, comparing
str(self) to str(other)) iff their serialized canonical forms are the same
string; in particular file:/a/./b equals file:/a/b after normalization. -/
theorem urn_eq_iff_serialize_eq :
    (∀ u v : URN, URN.eq u v = true ↔
      u.SerializeToString = v.SerializeToString) ∧
    URN.eq (URN.Set (pystr "file:/a/./b")) (URN.Set (pystr "file:/a/b")) = true := by
  refine ⟨fun u v => ?_, by decide⟩
  unfold URN.eq
  exact beq_iff_eq

/-! ## Claim C9: Append does not mutate the receiver -/

/-- Claim C9: a call u.Append(component, quote) leaves u unchanged — the
post-state of self equals u, its serialized form and stored value included —
and returns the fresh URN that URN.Append builds. -/
theorem append_does_not_mutate (u : URN) (component : List Char) (quote : Bool) :
    (u.AppendM component quote).1 = u ∧
    (u.AppendM component quote).1.value = u.value ∧
    (u.AppendM component quote).1.SerializeToString = u.SerializeToString ∧
    (u.AppendM component quote).2 = u.Append component quote :=
  ⟨rfl, rfl, rfl, rfl⟩

/-! ## Claim C4: a missing scheme defaults to "file" -/

/-- Claim C4: for every input string in which urlsplit finds no scheme
component, the constructed URN's Scheme() is "file". -/
theorem scheme_defaults_to_file (s : List Char) (h : (pysplit s).scheme = []) :
    (URN.Set s).Scheme = pystr "file" := by
  have h' : (pyparse s).scheme = [] := by
    simp only [pyparse]
    split <;> simpa using h
  simp only [URN.Scheme, URN.Parse]
  split
  · rfl
  · next hne => exact absurd h' (by simpa using hne)

/-- Witness for claim C4 at the spec's example input "/a/b". -/
theorem scheme_defaults_to_file_witness :
    (pysplit (pystr "/a/b")).scheme = [] ∧
    (URN.Set (pystr "/a/b")).Scheme = pystr "file" :=
  ⟨by decide, scheme_defaults_to_file (pystr "/a/b") (by decide)⟩

/-! ## Claim C5: ToFilename yields the normalized path for file URNs only -/

/-- Claim C5: toFilePath returns the POSIX-lexically-normalized path exactly
when the scheme is "file" and is absent for every other scheme; in particular
URN("file:/a/./b/../c").toFilePath() is "/a/c". -/
theorem toFilename_spec :
    (∀ u : URN, u.ToFilename =
      if u.Scheme = pystr "file" then some u.Parse.path else none) ∧
    (∀ u : URN, u.Parse.path = pnorm (pyparse u.value).path) ∧
    (URN.Set (pystr "file:/a/./b/../c")).ToFilename = some (pystr "/a/c") := by
  refine ⟨fun u => rfl, fun u => ?_, by decide⟩
  simp only [URN.Parse]
  split <;> rfl

/-! ## Claim C8: the hex codec rejects malformed input -/

theorem hexDecode_sound : ∀ (s : List Char) (r : List Nat), hexDecode s = some r →
    s.length % 2 = 0 ∧ ∀ c ∈ s, isHexDigitChar c = true
  | [], _, _ => ⟨rfl, fun c hc => absurd hc (List.not_mem_nil c)⟩
  | [_], _, hr => absurd hr (by simp [hexDecode])
  | a :: b :: t, r, hr => by
    unfold hexDecode at hr
    by_cases hab : isHexDigitChar a ∧ isHexDigitChar b
    · rw [if_pos hab] at hr
      cases ht : hexDecode t with
      | none => rw [ht] at hr; cases hr
      | some rt =>
        obtain ⟨hlen, hhex⟩ := hexDecode_sound t rt ht
        refine ⟨by simp only [List.length_cons]; omega, ?_⟩
        intro c hc
        rcases List.mem_cons.mp hc with rfl | hc
        · exact hab.1
        rcases List.mem_cons.mp hc with rfl | hc
        · exact hab.2
        · exact hhex c hc
    · rw [if_neg hab] at hr
      cases hr

/-- Claim C8: deserializing any odd-length string, or any string containing a
non-hexadecimal character, into RDFBytes fails (the hex codec raises). -/
theorem hex_rejects_malformed (s : List Char)
    (h : s.length % 2 = 1 ∨ ∃ c ∈ s, isHexDigitChar c = false) :
    RDFBytes.UnSerializeFromString s = none := by
  cases heq : hexDecode s with
  | none => simp [RDFBytes.UnSerializeFromString, heq]
  | some r =>
    exfalso
    obtain ⟨hlen, hhex⟩ := hexDecode_sound s r heq
    rcases h with hodd | ⟨c, hc, hbad⟩
    · omega
    · rw [hhex c hc] at hbad
      cases hbad

/-- Witness for claim C8 at the spec's examples "abc" (odd length) and "zz"
(non-hex digit). -/
theorem hex_rejects_malformed_witness :
    RDFBytes.UnSerializeFromString (pystr "abc") = none ∧
    RDFBytes.UnSerializeFromString (pystr "zz") = none :=
  ⟨hex_rejects_malformed (pystr "abc") (Or.inl (by decide)),
   hex_rejects_malformed (pystr "zz") (Or.inr ⟨'z', by decide, by decide⟩)⟩

/-! ## Claim C1: the URN serialize/deserialize round trip is broken -/

theorem all_digit_false_of_colon {ds : List Char} (h : ':' ∈ ds) :
    ds.all isDigitChar = false := by
  rw [Bool.eq_false_iff]
  intro hall
  exact absurd (List.all_eq_true.mp hall ':' h) (by decide)

theorem mem_pyStrip {a : Char} {s : List Char} (h : a ∈ s)
    (hp : isPySpace a = false) : a ∈ pyStrip s := by
  unfold pyStrip
  rw [List.mem_reverse]
  refine mem_dropWhile_of_mem ?_ hp
  rw [List.mem_reverse]
  exact mem_dropWhile_of_mem h hp

theorem pyInt_colon {s : List Char} (h : ':' ∈ s) : pyInt s = none := by
  have ht : ':' ∈ pyStrip s := mem_pyStrip h (by decide)
  simp only [pyInt]
  rcases htt : pyStrip s with _ | ⟨c, r⟩
  · rw [htt] at ht
    cases ht
  · rw [htt] at ht
    by_cases hm : c = '-'
    · subst hm
      have hr : ':' ∈ r := by
        rcases List.mem_cons.mp ht with h' | h'
        · exact absurd h' (by decide)
        · exact h'
      simp [htt, all_digit_false_of_colon hr]
    · by_cases hp : c = '+'
      · subst hp
        have hr : ':' ∈ r := by
          rcases List.mem_cons.mp ht with h' | h'
          · exact absurd h' (by decide)
          · exact h'
        simp [htt, hm, all_digit_false_of_colon hr]
      · simp [htt, hm, hp, all_digit_false_of_colon ht]

theorem parse_scheme_ne_nil (u : URN) : u.Parse.scheme ≠ [] := by
  simp only [URN.Parse]
  split
  · show pystr "file" ≠ []
    decide
  · next h => exact h

theorem colon_mem_urlunsplit (sc nl url q f : List Char) (h : sc ≠ []) :
    ':' ∈ urlunsplit sc nl url q f := by
  have h2 : ∀ u1 : List Char, ':' ∈ sc ++ ':' :: u1 := fun u1 =>
    List.mem_append_right _ (List.mem_cons_self _ _)
  simp only [urlunsplit]
  split <;> split <;>
    first
      | exact List.mem_append_left _ (List.mem_append_left _ (h2 _))
      | exact List.mem_append_left _ (h2 _)
      | exact h2 _

theorem serialize_has_colon (u : URN) : ':' ∈ u.SerializeToString := by
  simp only [URN.SerializeToString, urlunparse]
  exact colon_mem_urlunsplit _ _ _ _ _ (parse_scheme_ne_nil u)

/-- Claim C1 (code bug): URN.UnSerializeFromString applies int() to the
serialized string, and every serialized URN contains a colon (its scheme is
never empty), so deserializing the serialization of any URN raises ValueError
instead of returning an equal URN — the round-trip law fails for the URN
variant. -/
theorem urn_deserialize_serialize_fails (u : URN) :
    URN.UnSerializeFromString u.SerializeToString = none := by
  unfold URN.UnSerializeFromString
  rw [pyInt_colon (serialize_has_colon u)]
  rfl

/-! ## Claim C2: quoting in Append -/

/-- Claim C2 counterexample: with quote=true the slash in the component is
NOT percent-encoded (urllib.quote's default safe set keeps "/"), so
append("b/c") with quoting behaves exactly like quote=false and produces two
path segments, not the escaped single segment "/a/b%2Fc". -/
theorem append_quote_keeps_slash :
    URN.Append (URN.Set (pystr "file:/a")) (pystr "b/c") true =
      URN.Append (URN.Set (pystr "file:/a")) (pystr "b/c") false ∧
    (URN.Append (URN.Set (pystr "file:/a")) (pystr "b/c") true).ToFilename =
      some (pystr "/a/b/c") ∧
    ¬ (URN.Append (URN.Set (pystr "file:/a")) (pystr "b/c") true).ToFilename =
      some (pystr "/a/b%2Fc") :=
  ⟨by decide, by decide, by decide⟩

/-- Claim C2 as amended: with quote=true, reserved characters other than the
slash are percent-encoded before joining (the slash is in urllib.quote's
default safe set and passes through unchanged), and with quote=false the
component is joined unencoded; both concrete examples of the claim hold. -/
theorem append_quote_spec :
    (URN.Append (URN.Set (pystr "file:/a")) (pystr "b c") true).ToFilename =
      some (pystr "/a/b%20c") ∧
    (URN.Append (URN.Set (pystr "file:/a")) (pystr "b/c") false).ToFilename =
      some (pystr "/a/b/c") ∧
    (∀ c1 c2 : List Char, pyQuote (c1 ++ '/' :: c2) =
      pyQuote c1 ++ '/' :: pyQuote c2) := by
  refine ⟨by decide, by decide, fun c1 c2 => ?_⟩
  have hs : quoteChar '/' = ['/'] := by decide
  simp [pyQuote, hs]

/-! ## Claim C3: idempotent normalization -/

/-- Claim C3 counterexample: for the input string "1", URN("1") serializes to
"file:1", but URN("file:1") serializes to "file:file:1" — Python 2.7's
urlsplit treats "file:1" as host:port-like (scheme followed by digits) and
refuses to split the scheme, so the second parse reads the whole string as a
path and prefixes another "file:". -/
theorem serialize_not_idempotent_digits :
    URN.SerializeToString (URN.Set (pystr "1")) = pystr "file:1" ∧
    URN.SerializeToString (URN.Set (URN.SerializeToString (URN.Set (pystr "1")))) =
      pystr "file:file:1" ∧
    ¬ URN.SerializeToString (URN.Set (URN.SerializeToString (URN.Set (pystr "1")))) =
      URN.SerializeToString (URN.Set (pystr "1")) :=
  ⟨by decide, by decide, by decide⟩

end Pyaff4
